import Mathlib

/-
  Verification development for the cryptobot auction engine.

  The TypeScript source keeps two implementations of the `Auction` class:
  a variant whose sorted view is a lazily recomputed `sortedCache`
  (here the `L`-suffixed definitions), and a variant that maintains a
  `sortedBids` array incrementally by remove-then-binary-search insertion
  (here the unsuffixed definitions).  Both are embedded below together
  with the `BalanceManager`, the recovery derivation of `AuctionManager`,
  and a trace semantics driving `placeBid` / timer-fired `endRound`.

  Modelling conventions:
  * JS numbers used as money amounts and millisecond timestamps become `Int`;
    `count_of_gifts` (an array length / slice count) becomes `Nat`.
  * JS `Map`s become association lists with unique keys; `Map.set` updates
    in place (keeping the original insertion position) or appends.
  * `Date.now()` becomes an explicit `now : Int` argument.
  * The single-shot `setTimeout` timer becomes a `timerTarget : Option Int`
    field recording the scheduled fire time; the firing itself is a trace
    event (`Ev.fire`).  `scheduleRoundEnd`'s immediate-call branch for a
    nonpositive remaining duration is not exercised by plans with positive
    round durations, which is what every scenario below uses.
  * `BidResult.error` display strings are represented by their error kinds
    (the spec's wire contract): NotActive, NonPositive, NotHigher,
    InsufficientFunds.
  * Repository writes (auction status, winner appends, balance saves) are
    kept inside the state as `db…` fields; console logs and the host
    callbacks `onRoundEnd` / `onAuctionEnd` have no engine-state effect and
    are dropped.
  * `totalDebited` / `totalRefunded` are ghost accumulators (not present in
    the source state) instrumenting the conservation accounting: every
    `balanceManager.remove` performed by an accepted bid adds to
    `totalDebited`, every `endAuction` refund adds to `totalRefunded`.
-/

/-- Round plan entry: `{ round_number, count_of_gifts, time }` (time in seconds). -/
structure RoundPlan where
  round_number : Int
  count_of_gifts : Nat
  time : Int
deriving Repr, DecidableEq, Inhabited

/-- In-memory bid: `{ userId, amount, timestamp }`. -/
structure Bid where
  userId : String
  amount : Int
  timestamp : Int
deriving Repr, DecidableEq, Inhabited

/-- Persisted winner record: `{ user_id, stars, gift_number }`. -/
structure Winner where
  user_id : String
  stars : Int
  gift_number : Nat
deriving Repr, DecidableEq, Inhabited

/-- Auction status in the repository. -/
inductive AuctionStatus where
  | pending
  | active
  | finished
deriving Repr, DecidableEq

/-- Typed bid-rejection kinds; the source returns display strings, one per
branch of `placeBid`, and the spec names the kinds as the wire contract.
`notHigher` carries the current stored bid, `insufficientFunds` carries the
needed delta and the available balance shown in the message. -/
inductive BidError where
  | notActive
  | nonPositive
  | notHigher (currentBid : Int)
  | insufficientFunds (needed : Int) (balance : Int)
deriving Repr, DecidableEq

/-- `BidResult`: success carries `newBid`, failure carries the typed error. -/
inductive BidResult where
  | ok (newBid : Int)
  | err (e : BidError)
deriving Repr, DecidableEq

/-- The leaderboard order of the source comparator
`(a, b) => b.amount - a.amount, ties a.timestamp - b.timestamp`:
`a` sorts no later than `b`. -/
def bidKeyLE (a b : Bid) : Prop :=
  b.amount < a.amount ∨ (a.amount = b.amount ∧ a.timestamp ≤ b.timestamp)

/-- Strict version of the leaderboard order: `a` sorts strictly before `b`.
This is exactly the condition `cmp > 0 || (cmp === 0 && mid.timestamp <
bid.timestamp)` steering the binary search in `updateSortedBids`. -/
def bidPrec (a b : Bid) : Prop :=
  b.amount < a.amount ∨ (a.amount = b.amount ∧ a.timestamp < b.timestamp)

instance : DecidableRel bidKeyLE := fun a b => by
  unfold bidKeyLE; exact inferInstance

instance : DecidableRel bidPrec := fun a b => by
  unfold bidPrec; exact inferInstance

instance : IsTotal Bid bidKeyLE := by
  constructor; intro a b; unfold bidKeyLE; omega

instance : IsTrans Bid bidKeyLE := by
  constructor; intro a b c hab hbc; unfold bidKeyLE at *; omega

instance : IsAntisymm Bid bidPrec := by
  constructor; intro a b h1 h2
  exact absurd h2 (by unfold bidPrec at *; omega)

/- ═══════════════  BalanceManager (Balance.ts)  ═══════════════ -/

/-- The in-memory balance map `Map<string, number>`: an association list with
unique keys, in insertion order. -/
abbrev BalanceMap := List (String × Int)

namespace BalanceManager

/-- `get(userId)`: the stored balance, defaulting to 0. -/
def get (m : BalanceMap) (u : String) : Int :=
  match m with
  | [] => 0
  | (k, v) :: rest => if k = u then v else get rest u

/-- `Map.set`: replace the entry in place if the key exists, else append. -/
def set (m : BalanceMap) (u : String) (v : Int) : BalanceMap :=
  match m with
  | [] => [(u, v)]
  | (k, w) :: rest => if k = u then (u, v) :: rest else (k, w) :: set rest u v

/-- `add(userId, amount)`: `bal[u] ← bal[u] + n` (the returned new balance is
unused by the engine). -/
def add (m : BalanceMap) (u : String) (n : Int) : BalanceMap :=
  set m u (get m u + n)

/-- `remove(userId, amount)`: conditional debit.  Returns `false` leaving the
map unchanged when the balance is insufficient, else debits and returns
`true`. -/
def remove (m : BalanceMap) (u : String) (n : Int) : Bool × BalanceMap :=
  let current := get m u
  if current < n then (false, m)
  else (true, set m u (current - n))

/-- `loadBalances(records)`: clear the map and `set` every record. -/
def load (records : BalanceMap) : BalanceMap :=
  records.foldl (fun m r => set m r.1 r.2) []

end BalanceManager

/- ═══════════════  Bid map (`bids: Map<string, Bid>`) helpers  ═══════════════ -/

/-- `bids.get(userId)`: the unique entry with this key (first match). -/
def bidsFind (u : String) (l : List Bid) : Option Bid :=
  l.find? (fun b => b.userId == u)

/-- `bids.set(userId, bid)`: replace the entry with this key in place
(keeping its insertion position, as a JS `Map` does) or append. -/
def bidsSet (bid : Bid) : List Bid → List Bid
  | [] => [bid]
  | x :: xs => if x.userId = bid.userId then bid :: xs else x :: bidsSet bid xs

/-- Remove the first entry with the given userId: this is both
`bids.delete(userId)` and the `findIndex` + `splice(oldIndex, 1)` step of
`updateSortedBids` (keys are unique in both containers). -/
def removeUser (u : String) : List Bid → List Bid
  | [] => []
  | x :: xs => if x.userId = u then xs else x :: removeUser u xs

/- ═══════════════  Binary-search insertion (updateSortedBids)  ═══════════════ -/

/-- The `while (left < right)` binary-search loop of `updateSortedBids`:
`mid = (left + right) >> 1`, descend right when `sortedBids[mid]` strictly
precedes the new bid.  Each iteration strictly narrows `right - left`, so
the loop is phrased with that quantity as structural fuel (`bsLoop` below
supplies it), keeping the function kernel-evaluable. -/
def bsLoopF (l : List Bid) (b : Bid) : Nat → Nat → Nat → Nat
  | 0, left, _right => left
  | fuel + 1, left, right =>
    if left < right then
      if bidPrec (l.getD ((left + right) / 2) default) b then
        bsLoopF l b fuel ((left + right) / 2 + 1) right
      else
        bsLoopF l b fuel left ((left + right) / 2)
    else left

def bsLoop (l : List Bid) (b : Bid) (left right : Nat) : Nat :=
  bsLoopF l b (right - left) left right

/-- The linear characterisation of the binary-search result on a sorted
array: the number of entries strictly preceding the new bid. -/
def insertPos (b : Bid) : List Bid → Nat
  | [] => 0
  | x :: xs => if bidPrec x b then insertPos b xs + 1 else 0

/-- `updateSortedBids(bid)`: drop the bidder's old entry, then splice the new
bid in at the binary-search position. -/
def updateSortedBids (sorted : List Bid) (bid : Bid) : List Bid :=
  let pruned := removeUser bid.userId sorted
  pruned.insertIdx (bsLoop pruned bid 0 pruned.length) bid

/- ═══════════════  Auction engine, incremental `sortedBids` variant  ═══════════════ -/

/-- Engine state of the incremental variant, together with the repository
record it owns (`db…` fields), the process-wide `balanceManager` map it
uses (`balances`), and the two ghost conservation accumulators. -/
structure AuctionState where
  plan : List RoundPlan
  currentRound : Nat
  bids : List Bid
  sortedBids : List Bid
  roundEndTime : Int
  timerTarget : Option Int
  isActive : Bool
  balances : BalanceMap
  dbBalances : BalanceMap
  dbWinners : List Winner
  dbStatus : AuctionStatus
  totalDebited : Int
  totalRefunded : Int
deriving Repr, DecidableEq

/-- Fresh engine as built by the constructor plus its `pending` repository
record, over a given repository balance snapshot. -/
def mkAuction (plan : List RoundPlan) (db : BalanceMap) : AuctionState :=
  { plan := plan
    currentRound := 0
    bids := []
    sortedBids := []
    roundEndTime := 0
    timerTarget := none
    isActive := false
    balances := []
    dbBalances := db
    dbWinners := []
    dbStatus := .pending
    totalDebited := 0
    totalRefunded := 0 }

/-- `getGiftsAwarded()`: Σ `plan[i].count_of_gifts` for `i < currentRound`. -/
def getGiftsAwarded (s : AuctionState) : Nat :=
  ((s.plan.take s.currentRound).map RoundPlan.count_of_gifts).sum

/-- `getTotalGifts()`: Σ `plan[i].count_of_gifts` over the whole plan. -/
def getTotalGifts (s : AuctionState) : Nat :=
  (s.plan.map RoundPlan.count_of_gifts).sum

/-- `winners.map((bid, i) => ({user_id, stars, gift_number: offset + i + 1}))`:
build winner records with a running 1-based gift number. -/
def mkWinnersFrom (offset : Nat) : List Bid → List Winner
  | [] => []
  | b :: rest => ⟨b.userId, b.amount, offset + 1⟩ :: mkWinnersFrom (offset + 1) rest

/-- `scheduleRoundEnd()`: clear any pending timer and arm a single shot at
`roundEndTime` (every call site below has a strictly positive remaining
duration, so the immediate-fire branch is dead). -/
def scheduleRoundEnd (s : AuctionState) : AuctionState :=
  { s with timerTarget := some s.roundEndTime }

/-- `endAuction()`: deactivate, cancel the timer, refund every remaining bid
into the balance map, clear `bids` (the incremental variant does NOT clear
`sortedBids`), persist the exported balances and the `finished` status. -/
def endAuction (s : AuctionState) : AuctionState :=
  let refunded := (s.bids.map Bid.amount).sum
  let balances := s.bids.foldl (fun m b => BalanceManager.add m b.userId b.amount) s.balances
  { s with isActive := false
           timerTarget := none
           balances := balances
           bids := []
           dbBalances := balances
           dbStatus := .finished
           totalRefunded := s.totalRefunded + refunded }

/-- `startRound()`: route to `endAuction` past the end of the plan; otherwise
reload the balance map from the repository snapshot, clear the bid
structures only for round 0, set the deadline, activate, persist `active`,
and arm the timer. -/
def startRound (now : Int) (s : AuctionState) : AuctionState :=
  if s.plan.length ≤ s.currentRound then endAuction s
  else
    let s := { s with balances := BalanceManager.load s.dbBalances }
    let s := if s.currentRound = 0 then { s with bids := [], sortedBids := [] } else s
    let roundDuration := (s.plan.getD s.currentRound default).time * 1000
    scheduleRoundEnd { s with roundEndTime := now + roundDuration
                              isActive := true
                              dbStatus := .active }

/-- `placeBid(userId, amount)`, synchronous: the four validation guards in
source order, then debit, bid replacement, sorted insertion and the
anti-snipe check (threshold taken before the insertion). -/
def placeBid (now : Int) (userId : String) (amount : Int) (s : AuctionState) :
    BidResult × AuctionState :=
  if s.isActive = false then (.err .notActive, s)
  else if amount ≤ 0 then (.err .nonPositive, s)
  else
    let currentBid := ((bidsFind userId s.bids).map Bid.amount).getD 0
    if amount ≤ currentBid then (.err (.notHigher currentBid), s)
    else
      let needed := amount - currentBid
      let balance := BalanceManager.get s.balances userId
      if balance < needed then (.err (.insufficientFunds needed balance), s)
      else
        let remaining := s.roundEndTime - now
        let isLastSeconds := 0 < remaining ∧ remaining < 5 * 1000
        let winnersCount := ((s.plan.get? s.currentRound).map RoundPlan.count_of_gifts).getD 0
        let currentMinWinning : Int :=
          if isLastSeconds ∧ 0 < winnersCount ∧ winnersCount ≤ s.sortedBids.length then
            (s.sortedBids.getD (winnersCount - 1) default).amount
          else 0
        let balances := (BalanceManager.remove s.balances userId needed).2
        let bid : Bid := ⟨userId, amount, now⟩
        let s := { s with balances := balances
                          bids := bidsSet bid s.bids
                          sortedBids := updateSortedBids s.sortedBids bid
                          totalDebited := s.totalDebited + needed }
        if isLastSeconds ∧ currentMinWinning < amount ∧ 0 < currentMinWinning then
          (.ok amount, scheduleRoundEnd { s with roundEndTime := now + 10 * 1000 })
        else
          (.ok amount, s)

/-- Synchronous prefix of `endRound()` up to the `await commitRound` point:
take the top `count_of_gifts` bids, build the winner records, delete the
winners from `bids` and splice them off the front of `sortedBids`.  Returns
the mutated state and the winner records still to be committed. -/
def endRoundPhase1 (s : AuctionState) : AuctionState × List Winner :=
  let winnersCount := (s.plan.getD s.currentRound default).count_of_gifts
  let winners := s.sortedBids.take winnersCount
  let winnersData := mkWinnersFrom (getGiftsAwarded s) winners
  ({ s with bids := winners.foldl (fun m w => removeUser w.userId m) s.bids
            sortedBids := s.sortedBids.drop winnersCount },
   winnersData)

/-- Remainder of `endRound()` after the suspension: append the winners to the
repository record (`commitRound`), advance the round, and either start the
next round or end the auction. -/
def endRoundPhase2 (now : Int) (p : AuctionState × List Winner) : AuctionState :=
  let s := { p.1 with dbWinners := p.1.dbWinners ++ p.2
                      currentRound := p.1.currentRound + 1 }
  if s.currentRound < s.plan.length then startRound now s else endAuction s

/-- `endRound()`: no-op unless `isActive` (the flag itself is not cleared
here), then the two phases in sequence. -/
def endRound (now : Int) (s : AuctionState) : AuctionState :=
  if s.isActive then endRoundPhase2 now (endRoundPhase1 s) else s

/-- `getMinWinningBid()`: 0 without a current round plan, 1 while the top-K
is under-filled, else the K-th amount plus one. -/
def getMinWinningBid (s : AuctionState) : Int :=
  match s.plan.get? s.currentRound with
  | none => 0
  | some roundPlan =>
      if s.sortedBids.length < roundPlan.count_of_gifts then 1
      else (s.sortedBids.getD (roundPlan.count_of_gifts - 1) default).amount + 1

/-- `getLeaderboard(limit)` reduced to its informative part: the
`(userId, amount)` pairs in rank order (`position` is the 1-based index). -/
def getLeaderboard (s : AuctionState) (limit : Nat) : List (String × Int) :=
  (s.sortedBids.take limit).map (fun b => (b.userId, b.amount))

/- ═══════════════  Trace semantics  ═══════════════ -/

/-- External events hitting a running auction: a bid request, or the armed
timer firing `endRound`, each with the wall-clock reading. -/
inductive Ev where
  | bid (now : Int) (userId : String) (amount : Int)
  | fire (now : Int)
deriving Repr, DecidableEq

/-- Wall-clock reading of an event. -/
def evTime : Ev → Int
  | .bid now _ _ => now
  | .fire now => now

/-- Run a list of events, collecting every `BidResult` in order. -/
def runI (s : AuctionState) : List Ev → AuctionState × List BidResult
  | [] => (s, [])
  | .bid now u a :: rest =>
      let r := placeBid now u a s
      let t := runI r.2 rest
      (t.1, r.1 :: t.2)
  | .fire now :: rest => runI (endRound now s) rest

/-- A whole auction run: fresh engine over a repository snapshot, the first
`startRound` at `now0`, then the event trace. -/
def runAuction (plan : List RoundPlan) (db : BalanceMap) (now0 : Int)
    (events : List Ev) : AuctionState × List BidResult :=
  runI (startRound now0 (mkAuction plan db)) events

/- ═══════════════  Auction engine, lazy `sortedCache` variant  ═══════════════ -/

/-- Engine state of the lazily-sorted variant: same fields, but the sorted
view is a nullable cache recomputed on demand from `bids`. -/
structure AuctionStateL where
  plan : List RoundPlan
  currentRound : Nat
  bids : List Bid
  sortedCache : Option (List Bid)
  roundEndTime : Int
  timerTarget : Option Int
  isActive : Bool
  balances : BalanceMap
  dbBalances : BalanceMap
  dbWinners : List Winner
  dbStatus : AuctionStatus
deriving Repr, DecidableEq

/-- Fresh lazy-variant engine plus its `pending` repository record. -/
def mkAuctionL (plan : List RoundPlan) (db : BalanceMap) : AuctionStateL :=
  { plan := plan
    currentRound := 0
    bids := []
    sortedCache := none
    roundEndTime := 0
    timerTarget := none
    isActive := false
    balances := []
    dbBalances := db
    dbWinners := []
    dbStatus := .pending }

/-- `getSortedBids()`: the cached array, or `[...bids.values()].sort(cmp)`.
`Array.prototype.sort` is stable (ECMAScript 2019) and the map iterates in
insertion order, so the sort is modelled by the stable `insertionSort` under
the comparator's reflexive order `bidKeyLE`.  The memo write this performs
in the source stores exactly this list, so reading it as a pure function is
observationally faithful (every state mutation nulls the cache). -/
def getSortedBidsL (s : AuctionStateL) : List Bid :=
  s.sortedCache.getD (List.insertionSort bidKeyLE s.bids)

def getGiftsAwardedL (s : AuctionStateL) : Nat :=
  ((s.plan.take s.currentRound).map RoundPlan.count_of_gifts).sum

/-- `scheduleRoundEnd()` of the lazy variant. -/
def scheduleRoundEndL (s : AuctionStateL) : AuctionStateL :=
  { s with timerTarget := some s.roundEndTime }

/-- `endAuction()` of the lazy variant (the cache field is left untouched,
as in the source; it is `none` on every path reaching here). -/
def endAuctionL (s : AuctionStateL) : AuctionStateL :=
  let balances := s.bids.foldl (fun m b => BalanceManager.add m b.userId b.amount) s.balances
  { s with isActive := false
           timerTarget := none
           balances := balances
           bids := []
           dbBalances := balances
           dbStatus := .finished }

/-- `startRound()` of the lazy variant: clears `bids` only for round 0 but
nulls the cache unconditionally. -/
def startRoundL (now : Int) (s : AuctionStateL) : AuctionStateL :=
  if s.plan.length ≤ s.currentRound then endAuctionL s
  else
    let s := { s with balances := BalanceManager.load s.dbBalances }
    let s := if s.currentRound = 0 then { s with bids := [] } else s
    let s := { s with sortedCache := none }
    let roundDuration := (s.plan.getD s.currentRound default).time * 1000
    scheduleRoundEndL { s with roundEndTime := now + roundDuration
                               isActive := true
                               dbStatus := .active }

/-- `placeBid` of the lazy variant: identical guards; the anti-snipe
threshold is read from the freshly sorted view
(`sorted[winnersCount - 1]?.amount ?? 0` when `sorted.length >= K`, with the
index `-1` of `K = 0` yielding `undefined ?? 0 = 0`); the mutation path
nulls the cache. -/
def placeBidL (now : Int) (userId : String) (amount : Int) (s : AuctionStateL) :
    BidResult × AuctionStateL :=
  if s.isActive = false then (.err .notActive, s)
  else if amount ≤ 0 then (.err .nonPositive, s)
  else
    let currentBid := ((bidsFind userId s.bids).map Bid.amount).getD 0
    if amount ≤ currentBid then (.err (.notHigher currentBid), s)
    else
      let needed := amount - currentBid
      let balance := BalanceManager.get s.balances userId
      if balance < needed then (.err (.insufficientFunds needed balance), s)
      else
        let remaining := s.roundEndTime - now
        let isLastSeconds := 0 < remaining ∧ remaining < 5 * 1000
        let winnersCount := ((s.plan.get? s.currentRound).map RoundPlan.count_of_gifts).getD 0
        let sorted := getSortedBidsL s
        let currentMinWinning : Int :=
          if winnersCount ≤ sorted.length then
            (if winnersCount = 0 then 0 else (sorted.getD (winnersCount - 1) default).amount)
          else 0
        let balances := (BalanceManager.remove s.balances userId needed).2
        let bid : Bid := ⟨userId, amount, now⟩
        let s := { s with balances := balances
                          bids := bidsSet bid s.bids
                          sortedCache := none }
        if isLastSeconds ∧ currentMinWinning < amount ∧ 0 < currentMinWinning then
          (.ok amount, scheduleRoundEndL { s with roundEndTime := now + 10 * 1000 })
        else
          (.ok amount, s)

/-- Synchronous prefix of the lazy variant's `endRound()`: sort, slice the
winners, delete only the winners from `bids`, null the cache. -/
def endRoundPhase1L (s : AuctionStateL) : AuctionStateL × List Winner :=
  let winnersCount := (s.plan.getD s.currentRound default).count_of_gifts
  let winners := (getSortedBidsL s).take winnersCount
  let winnersData := mkWinnersFrom (getGiftsAwardedL s) winners
  ({ s with bids := winners.foldl (fun m w => removeUser w.userId m) s.bids
            sortedCache := none },
   winnersData)

/-- Remainder of the lazy variant's `endRound()` after the suspension. -/
def endRoundPhase2L (now : Int) (p : AuctionStateL × List Winner) : AuctionStateL :=
  let s := { p.1 with dbWinners := p.1.dbWinners ++ p.2
                      currentRound := p.1.currentRound + 1 }
  if s.currentRound < s.plan.length then startRoundL now s else endAuctionL s

/-- `endRound()` of the lazy variant. -/
def endRoundL (now : Int) (s : AuctionStateL) : AuctionStateL :=
  if s.isActive then endRoundPhase2L now (endRoundPhase1L s) else s

/-- `getLeaderboard(limit)` of the lazy variant, reduced as above. -/
def getLeaderboardL (s : AuctionStateL) (limit : Nat) : List (String × Int) :=
  ((getSortedBidsL s).take limit).map (fun b => (b.userId, b.amount))

/-- Run a list of events against the lazy variant. -/
def runL (s : AuctionStateL) : List Ev → AuctionStateL × List BidResult
  | [] => (s, [])
  | .bid now u a :: rest =>
      let r := placeBidL now u a s
      let t := runL r.2 rest
      (t.1, r.1 :: t.2)
  | .fire now :: rest => runL (endRoundL now s) rest

/-- A whole auction run against the lazy variant. -/
def runAuctionL (plan : List RoundPlan) (db : BalanceMap) (now0 : Int)
    (events : List Ev) : AuctionStateL × List BidResult :=
  runL (startRoundL now0 (mkAuctionL plan db)) events

/- ═══════════════  Crash recovery (AuctionManager.recoverFromDB)  ═══════════════ -/

/-- The persisted auction record fields that recovery consults. -/
structure AuctionDoc where
  plan : List RoundPlan
  winners : List Winner
deriving Repr, DecidableEq

/-- The round-derivation loop of `recoverFromDB`:
`for i: if winnersCount <= 0 break; winnersCount -= plan[i].count_of_gifts;
currentRound = i + 1`. -/
def deriveLoop : List RoundPlan → Int → Nat → Nat
  | [], _, currentRound => currentRound
  | p :: rest, winnersCount, currentRound =>
      if winnersCount ≤ 0 then currentRound
      else deriveLoop rest (winnersCount - (p.count_of_gifts : Int)) (currentRound + 1)

/-- The current round that `recoverFromDB` derives from the persisted
winner count (into a local variable). -/
def deriveRecoveryRound (plan : List RoundPlan) (winnersLen : Nat) : Nat :=
  deriveLoop plan (winnersLen : Int) 0

/-- `recoverFromDB` per document: derive the round, construct a fresh
`Auction` (the constructor leaves `currentRound = 0`; the derived value is
never passed to it), register it, and `startRound`.  The in-memory record
carries the persisted winners and `active` status. -/
def recoverOne (now : Int) (db : BalanceMap) (doc : AuctionDoc) : AuctionState :=
  let _derived := deriveRecoveryRound doc.plan doc.winners.length
  startRound now { mkAuction doc.plan db with dbWinners := doc.winners
                                              dbStatus := .active }

/- ═══════════════  Lemmas: the leaderboard order  ═══════════════ -/

theorem bidPrec_keyLE {a b : Bid} (h : bidPrec a b) : bidKeyLE a b := by
  unfold bidPrec at h; unfold bidKeyLE; omega

theorem keyLE_of_not_prec {a b : Bid} (h : ¬ bidPrec a b) : bidKeyLE b a := by
  unfold bidPrec at h; unfold bidKeyLE; omega

theorem keyLE_prec_trans {a b c : Bid} (h1 : bidKeyLE a b) (h2 : bidPrec b c) :
    bidPrec a c := by
  unfold bidKeyLE at h1; unfold bidPrec at *; omega

theorem keyLE_trans {a b c : Bid} (h1 : bidKeyLE a b) (h2 : bidKeyLE b c) :
    bidKeyLE a c := by
  unfold bidKeyLE at *; omega

/- ═══════════════  Lemmas: binary-search insertion  ═══════════════ -/

theorem insertPos_le_length (b : Bid) (l : List Bid) : insertPos b l ≤ l.length := by
  induction l with
  | nil => simp [insertPos]
  | cons x xs ih =>
    simp only [insertPos, List.length_cons]
    split <;> omega

theorem insertPos_lt_prec (b : Bid) :
    ∀ l : List Bid, List.Pairwise bidKeyLE l →
      ∀ i, i < insertPos b l → bidPrec (l.getD i default) b := by
  intro l
  induction l with
  | nil => intro _ i hi; simp [insertPos] at hi
  | cons x xs ih =>
    intro hp i hi
    simp only [insertPos] at hi
    by_cases hx : bidPrec x b
    · rw [if_pos hx] at hi
      cases i with
      | zero => simpa using hx
      | succ j =>
        rw [List.getD_cons_succ]
        exact ih (List.pairwise_cons.mp hp).2 j (by omega)
    · rw [if_neg hx] at hi; omega

theorem insertPos_ge_not_prec (b : Bid) :
    ∀ l : List Bid, List.Pairwise bidKeyLE l →
      ∀ i, insertPos b l ≤ i → i < l.length → ¬ bidPrec (l.getD i default) b := by
  intro l
  induction l with
  | nil => intro _ i _ hi; simp at hi
  | cons x xs ih =>
    intro hp i hge hlt
    obtain ⟨hhead, htail⟩ := List.pairwise_cons.mp hp
    simp only [insertPos] at hge
    by_cases hx : bidPrec x b
    · rw [if_pos hx] at hge
      cases i with
      | zero => omega
      | succ j =>
        rw [List.getD_cons_succ]
        exact ih htail j (by omega) (by simpa using hlt)
    · cases i with
      | zero => simpa using hx
      | succ j =>
        rw [List.getD_cons_succ]
        intro hcon
        have hj : j < xs.length := by simpa using hlt
        have hmem : xs.getD j default ∈ xs := by
          rw [List.getD_eq_getElem _ _ hj]
          exact List.getElem_mem hj
        exact hx (keyLE_prec_trans (hhead _ hmem) hcon)

theorem bsLoopF_eq_insertPos (l : List Bid) (b : Bid) (hs : List.Pairwise bidKeyLE l) :
    ∀ fuel left right, right - left ≤ fuel →
      left ≤ insertPos b l → insertPos b l ≤ right → right ≤ l.length →
      bsLoopF l b fuel left right = insertPos b l := by
  intro fuel
  induction fuel with
  | zero =>
    intro left right hf h1 h2 h3
    simp only [bsLoopF]
    omega
  | succ n ih =>
    intro left right hf h1 h2 h3
    simp only [bsLoopF]
    split
    · rename_i hlr
      split
      · rename_i hmid
        have hmidlt : (left + right) / 2 < insertPos b l := by
          by_contra hcon
          exact insertPos_ge_not_prec b l hs _ (by omega) (by omega) hmid
        exact ih _ _ (by omega) (by omega) h2 h3
      · rename_i hmid
        have hmidge : insertPos b l ≤ (left + right) / 2 := by
          by_contra hcon
          exact hmid (insertPos_lt_prec b l hs _ (by omega))
        exact ih _ _ (by omega) h1 (by omega) (by omega)
    · omega

theorem bsLoop_full (l : List Bid) (b : Bid) (hs : List.Pairwise bidKeyLE l) :
    bsLoop l b 0 l.length = insertPos b l :=
  bsLoopF_eq_insertPos l b hs (l.length - 0) 0 l.length (by omega)
    (Nat.zero_le _) (insertPos_le_length b l) le_rfl

theorem pairwise_insertIdx_insertPos (b : Bid) :
    ∀ l : List Bid, List.Pairwise bidKeyLE l →
      List.Pairwise bidKeyLE (l.insertIdx (insertPos b l) b) := by
  intro l
  induction l with
  | nil => intro _; simp [insertPos]
  | cons x xs ih =>
    intro hp
    obtain ⟨hhead, htail⟩ := List.pairwise_cons.mp hp
    by_cases hx : bidPrec x b
    · simp only [insertPos, if_pos hx]
      rw [List.insertIdx_succ_cons]
      refine List.pairwise_cons.mpr ⟨?_, ih htail⟩
      intro y hy
      rcases (List.mem_insertIdx (insertPos_le_length b xs)).mp hy with rfl | hmem
      · exact bidPrec_keyLE hx
      · exact hhead y hmem
    · simp only [insertPos, if_neg hx]
      rw [List.insertIdx_zero]
      refine List.pairwise_cons.mpr ⟨?_, hp⟩
      intro y hy
      rcases List.mem_cons.mp hy with rfl | hmem
      · exact keyLE_of_not_prec hx
      · exact keyLE_trans (keyLE_of_not_prec hx) (hhead y hmem)

/- ═══════════════  Lemmas: the keyed containers  ═══════════════ -/

theorem removeUser_sublist (u : String) :
    ∀ l : List Bid, (removeUser u l).Sublist l := by
  intro l
  induction l with
  | nil => simp [removeUser]
  | cons x xs ih =>
    simp only [removeUser]
    split
    · exact List.sublist_cons_self x xs
    · exact List.Sublist.cons₂ x ih

theorem removeUser_eq_filter (u : String) :
    ∀ l : List Bid, (l.map Bid.userId).Nodup →
      removeUser u l = l.filter (fun b => !(b.userId == u)) := by
  intro l
  induction l with
  | nil => simp [removeUser]
  | cons x xs ih =>
    intro hnd
    simp only [List.map_cons, List.nodup_cons] at hnd
    by_cases hx : x.userId = u
    · have h1 : removeUser u (x :: xs) = xs := by simp [removeUser, hx]
      have h2 : List.filter (fun b => !(b.userId == u)) (x :: xs)
          = List.filter (fun b => !(b.userId == u)) xs := by
        simp [List.filter_cons, hx]
      rw [h1, h2]
      symm
      rw [List.filter_eq_self]
      intro b hb
      simp only [Bool.not_eq_eq_eq_not, Bool.not_true, beq_eq_false_iff_ne, ne_eq]
      intro hbu
      have : b.userId ∈ List.map Bid.userId xs := List.mem_map_of_mem Bid.userId hb
      rw [hbu, ← hx] at this
      exact hnd.1 this
    · simp only [removeUser, if_neg hx, List.filter_cons]
      have hcond : (!(x.userId == u)) = true := by simp [hx]
      rw [hcond, if_pos rfl, ih hnd.2]

theorem bidsSet_perm (bid : Bid) :
    ∀ l : List Bid, (bidsSet bid l).Perm (bid :: removeUser bid.userId l) := by
  intro l
  induction l with
  | nil => simp [bidsSet, removeUser]
  | cons x xs ih =>
    simp only [bidsSet, removeUser]
    split
    · exact List.Perm.refl _
    · exact (ih.cons x).trans (List.Perm.swap bid x _)

theorem mem_ids_of_removeUser {x : String} {u : String} {l : List Bid}
    (h : x ∈ (removeUser u l).map Bid.userId) : x ∈ l.map Bid.userId :=
  ((removeUser_sublist u l).map Bid.userId).mem h

theorem bidsSet_ids_nodup (bid : Bid) :
    ∀ l : List Bid, (l.map Bid.userId).Nodup → ((bidsSet bid l).map Bid.userId).Nodup := by
  intro l
  induction l with
  | nil => simp [bidsSet]
  | cons x xs ih =>
    intro hnd
    simp only [List.map_cons, List.nodup_cons] at hnd
    simp only [bidsSet]
    split
    · rename_i hx
      simp only [List.map_cons, List.nodup_cons]
      exact ⟨hx ▸ hnd.1, hnd.2⟩
    · rename_i hx
      simp only [List.map_cons, List.nodup_cons]
      refine ⟨?_, ih hnd.2⟩
      intro hmem
      have := (((bidsSet_perm bid xs).map Bid.userId).mem_iff).mp hmem
      simp only [List.map_cons, List.mem_cons] at this
      rcases this with h | h
      · exact hx h
      · exact hnd.1 (mem_ids_of_removeUser h)

theorem updateSortedBids_eq (l : List Bid) (b : Bid)
    (hs : List.Pairwise bidKeyLE l) :
    updateSortedBids l b =
      (removeUser b.userId l).insertIdx (insertPos b (removeUser b.userId l)) b := by
  have hps : List.Pairwise bidKeyLE (removeUser b.userId l) :=
    List.Pairwise.sublist (removeUser_sublist b.userId l) hs
  show (removeUser b.userId l).insertIdx
      (bsLoop (removeUser b.userId l) b 0 (removeUser b.userId l).length) b = _
  rw [bsLoop_full _ _ hps]

theorem updateSortedBids_perm (l : List Bid) (b : Bid)
    (hs : List.Pairwise bidKeyLE l) :
    (updateSortedBids l b).Perm (b :: removeUser b.userId l) := by
  rw [updateSortedBids_eq l b hs]
  exact List.perm_insertIdx b _ (insertPos_le_length b _)

theorem updateSortedBids_sorted (l : List Bid) (b : Bid)
    (hs : List.Pairwise bidKeyLE l) :
    List.Pairwise bidKeyLE (updateSortedBids l b) := by
  rw [updateSortedBids_eq l b hs]
  exact pairwise_insertIdx_insertPos b _
    (List.Pairwise.sublist (removeUser_sublist b.userId l) hs)

theorem removeUser_ids_not_mem {u : String} :
    ∀ l : List Bid, (l.map Bid.userId).Nodup → u ∉ (removeUser u l).map Bid.userId := by
  intro l
  induction l with
  | nil => simp [removeUser]
  | cons x xs ih =>
    intro hnd
    simp only [List.map_cons, List.nodup_cons] at hnd
    simp only [removeUser]
    split
    · rename_i hx
      intro hmem
      exact hnd.1 (hx ▸ hmem)
    · rename_i hx
      simp only [List.map_cons, List.mem_cons]
      rintro (h | h)
      · exact hx h.symm
      · exact ih hnd.2 h

theorem updateSortedBids_ids_nodup (l : List Bid) (b : Bid)
    (hs : List.Pairwise bidKeyLE l) (hnd : (l.map Bid.userId).Nodup) :
    ((updateSortedBids l b).map Bid.userId).Nodup := by
  have hperm := (updateSortedBids_perm l b hs).map Bid.userId
  refine hperm.symm.nodup ?_
  simp only [List.map_cons, List.nodup_cons]
  exact ⟨removeUser_ids_not_mem l hnd,
         List.Nodup.sublist ((removeUser_sublist b.userId l).map Bid.userId) hnd⟩

theorem mem_bidsSet {x bid : Bid} {l : List Bid} (hx : x ∈ bidsSet bid l) :
    x = bid ∨ x ∈ l := by
  rcases List.mem_cons.mp ((bidsSet_perm bid l).mem_iff.mp hx) with h | h
  · exact Or.inl h
  · exact Or.inr (List.Sublist.mem h (removeUser_sublist _ l))

theorem mem_updateSortedBids {x bid : Bid} {l : List Bid}
    (hs : List.Pairwise bidKeyLE l) (hx : x ∈ updateSortedBids l bid) :
    x = bid ∨ x ∈ l := by
  rcases List.mem_cons.mp ((updateSortedBids_perm l bid hs).mem_iff.mp hx) with h | h
  · exact Or.inl h
  · exact Or.inr (List.Sublist.mem h (removeUser_sublist _ l))

/- ═══════════════  Lemmas: winner deletion at round close  ═══════════════ -/

theorem foldl_removeUser_eq_filter :
    ∀ (ws : List Bid) (m : List Bid), (m.map Bid.userId).Nodup →
      ws.foldl (fun m w => removeUser w.userId m) m
        = m.filter (fun b => !((ws.map Bid.userId).contains b.userId)) := by
  intro ws
  induction ws with
  | nil =>
    intro m _
    simp
  | cons w ws ih =>
    intro m hnd
    rw [List.foldl_cons, removeUser_eq_filter _ m hnd]
    have hnd2 : ((m.filter (fun b => !(b.userId == w.userId))).map Bid.userId).Nodup :=
      List.Nodup.sublist ((List.filter_sublist m).map Bid.userId) hnd
    rw [ih _ hnd2, List.filter_filter]
    apply List.filter_congr
    intro x _
    simp only [List.map_cons, List.contains_cons]
    cases h1 : x.userId == w.userId <;>
      cases h2 : (List.map Bid.userId ws).contains x.userId <;> simp [h1, h2]

theorem filter_take_ids_eq_drop (l : List Bid) (k : Nat)
    (hnd : (l.map Bid.userId).Nodup) :
    l.filter (fun b => !(((l.take k).map Bid.userId).contains b.userId)) = l.drop k := by
  have hsplit : ((l.take k).map Bid.userId ++ (l.drop k).map Bid.userId).Nodup := by
    rw [← List.map_append, List.take_append_drop]; exact hnd
  rw [List.nodup_append] at hsplit
  have hstep : l.filter (fun b => !(((l.take k).map Bid.userId).contains b.userId))
      = (l.take k ++ l.drop k).filter
          (fun b => !(((l.take k).map Bid.userId).contains b.userId)) := by
    rw [List.take_append_drop]
  rw [hstep, List.filter_append]
  have h1 : (l.take k).filter
      (fun b => !(((l.take k).map Bid.userId).contains b.userId)) = [] := by
    rw [List.filter_eq_nil_iff]
    intro a ha
    have hm : ((l.take k).map Bid.userId).contains a.userId = true :=
      List.elem_iff.mpr (List.mem_map_of_mem Bid.userId ha)
    rw [hm]
    simp
  have h2 : (l.drop k).filter
      (fun b => !(((l.take k).map Bid.userId).contains b.userId)) = l.drop k := by
    rw [List.filter_eq_self]
    intro a ha
    have hnm : a.userId ∉ (l.take k).map Bid.userId := fun hmem =>
      hsplit.2.2 hmem (List.mem_map_of_mem Bid.userId ha)
    have hm : ((l.take k).map Bid.userId).contains a.userId = false := by
      cases hc : ((l.take k).map Bid.userId).contains a.userId
      · rfl
      · exact absurd (List.elem_iff.mp hc) hnm
    rw [hm]
    simp
  rw [h1, h2, List.nil_append]

/- ═══════════════  The leaderboard invariant (incremental variant)  ═══════════════ -/

/-- State invariant of the incremental variant, maintained at every
observable boundary: the sorted sequence is ordered by (amount desc,
timestamp asc), user ids are unique in both containers, live amounts are
positive, and while the auction is active `bids` and `sortedBids` hold the
same multiset of bids; once inactive, `bids` is empty (while `sortedBids`
may retain stale entries left by `endAuction`). -/
structure EngineInv (s : AuctionState) : Prop where
  sorted_ord : List.Pairwise bidKeyLE s.sortedBids
  bids_ids : (s.bids.map Bid.userId).Nodup
  sorted_ids : (s.sortedBids.map Bid.userId).Nodup
  bids_pos : ∀ b ∈ s.bids, 0 < b.amount
  sorted_pos : ∀ b ∈ s.sortedBids, 0 < b.amount
  act_perm : s.isActive = true → s.bids.Perm s.sortedBids
  inact_empty : s.isActive = false → s.bids = []

theorem inv_mkAuction (plan : List RoundPlan) (db : BalanceMap) :
    EngineInv (mkAuction plan db) := by
  refine ⟨?_, ?_, ?_, ?_, ?_, ?_, ?_⟩ <;> simp [mkAuction]

theorem inv_endAuction {s : AuctionState} (h : EngineInv s) : EngineInv (endAuction s) := by
  refine ⟨h.sorted_ord, ?_, h.sorted_ids, ?_, h.sorted_pos, ?_, ?_⟩
  · simp [endAuction]
  · simp [endAuction]
  · intro hc; simp [endAuction] at hc
  · intro _; rfl

theorem inv_startRound (now : Int) {s : AuctionState} (h : EngineInv s)
    (hcall : s.isActive = true ∨ s.currentRound = 0) :
    EngineInv (startRound now s) := by
  unfold startRound
  dsimp only []
  split
  · exact inv_endAuction h
  · rename_i hlt
    split
    · rename_i h0
      refine ⟨?_, ?_, ?_, ?_, ?_, ?_, ?_⟩ <;> simp [scheduleRoundEnd]
    · rename_i h0
      have hact : s.isActive = true := by
        rcases hcall with hc | hc
        · exact hc
        · exact absurd hc h0
      refine ⟨h.sorted_ord, h.bids_ids, h.sorted_ids, h.bids_pos, h.sorted_pos, ?_, ?_⟩
      · intro _; exact h.act_perm hact
      · intro hc; simp [scheduleRoundEnd] at hc

theorem inv_placeBid (now : Int) (u : String) (a : Int) {s : AuctionState}
    (h : EngineInv s) : EngineInv (placeBid now u a s).2 := by
  unfold placeBid
  dsimp only []
  split
  · exact h
  · rename_i hact
    split
    · exact h
    · rename_i hpos
      split
      · exact h
      · rename_i hhigher
        split
        · exact h
        · rename_i hfunds
          have hactive : s.isActive = true := by
            cases hs : s.isActive
            · exact absurd hs hact
            · rfl
          have hperm := h.act_perm hactive
          have hb_nodup := h.bids_ids
          have hs_nodup := h.sorted_ids
          have hsorted := h.sorted_ord
          have hamount : (0:Int) < a := by omega
          have hfull : ∀ (t : AuctionState), t.bids = bidsSet ⟨u, a, now⟩ s.bids →
              t.sortedBids = updateSortedBids s.sortedBids ⟨u, a, now⟩ →
              t.isActive = s.isActive → EngineInv t := by
            intro t hbids hsortedb htact
            refine ⟨?_, ?_, ?_, ?_, ?_, ?_, ?_⟩
            · rw [hsortedb]; exact updateSortedBids_sorted _ _ hsorted
            · rw [hbids]; exact bidsSet_ids_nodup _ _ hb_nodup
            · rw [hsortedb]; exact updateSortedBids_ids_nodup _ _ hsorted hs_nodup
            · rw [hbids]
              intro b hb
              rcases mem_bidsSet hb with rfl | hb'
              · exact hamount
              · exact h.bids_pos b hb'
            · rw [hsortedb]
              intro b hb
              rcases mem_updateSortedBids hsorted hb with rfl | hb'
              · exact hamount
              · exact h.sorted_pos b hb'
            · intro _
              rw [hbids, hsortedb]
              refine (bidsSet_perm _ _).trans (List.Perm.trans ?_
                (updateSortedBids_perm _ _ hsorted).symm)
              apply List.Perm.cons
              rw [removeUser_eq_filter _ _ hb_nodup, removeUser_eq_filter _ _ hs_nodup]
              exact hperm.filter _
            · intro hc
              rw [htact, hactive] at hc
              exact absurd hc (by simp)
          split <;> split <;> exact hfull _ rfl rfl rfl

theorem inv_endRound (now : Int) {s : AuctionState} (h : EngineInv s) :
    EngineInv (endRound now s) := by
  unfold endRound
  split
  · rename_i hact
    have hperm := h.act_perm hact
    have hphase1 : EngineInv (endRoundPhase1 s).1 ∧ (endRoundPhase1 s).1.isActive = true := by
      unfold endRoundPhase1
      dsimp only []
      constructor
      · refine ⟨?_, ?_, ?_, ?_, ?_, ?_, ?_⟩
        · exact List.Pairwise.sublist (List.drop_sublist _ _) h.sorted_ord
        · rw [foldl_removeUser_eq_filter _ _ h.bids_ids]
          exact List.Nodup.sublist ((List.filter_sublist _).map Bid.userId) h.bids_ids
        · exact List.Nodup.sublist ((List.drop_sublist _ _).map Bid.userId) h.sorted_ids
        · rw [foldl_removeUser_eq_filter _ _ h.bids_ids]
          intro b hb
          exact h.bids_pos b (List.Sublist.mem hb (List.filter_sublist _))
        · intro b hb
          exact h.sorted_pos b (List.Sublist.mem hb (List.drop_sublist _ _))
        · intro _
          rw [foldl_removeUser_eq_filter _ _ h.bids_ids]
          refine (hperm.filter _).trans ?_
          rw [filter_take_ids_eq_drop _ _ h.sorted_ids]
        · intro hc; rw [hact] at hc; exact absurd hc (by simp)
      · exact hact
    obtain ⟨h1, h1act⟩ := hphase1
    unfold endRoundPhase2
    dsimp only []
    split
    · apply inv_startRound
      · exact ⟨h1.sorted_ord, h1.bids_ids, h1.sorted_ids, h1.bids_pos, h1.sorted_pos,
          fun _ => h1.act_perm h1act, fun hc => by rw [h1act] at hc; exact absurd hc (by simp)⟩
      · left; exact h1act
    · apply inv_endAuction
      exact ⟨h1.sorted_ord, h1.bids_ids, h1.sorted_ids, h1.bids_pos, h1.sorted_pos,
        fun _ => h1.act_perm h1act, fun hc => by rw [h1act] at hc; exact absurd hc (by simp)⟩
  · exact h

theorem inv_runI : ∀ (events : List Ev) {s : AuctionState}, EngineInv s →
    EngineInv (runI s events).1 := by
  intro events
  induction events with
  | nil => intro s h; exact h
  | cons e rest ih =>
    intro s h
    cases e with
    | bid now u a => exact ih (inv_placeBid now u a h)
    | fire now => exact ih (inv_endRound now h)

theorem inv_runAuction (plan : List RoundPlan) (db : BalanceMap) (now0 : Int)
    (events : List Ev) : EngineInv (runAuction plan db now0 events).1 :=
  inv_runI events (inv_startRound now0 (inv_mkAuction plan db) (Or.inr rfl))

/- ═══════════════  Uniqueness of the sorted view  ═══════════════ -/

theorem pairwise_prec_of_keyLE_ts_nodup {l : List Bid}
    (hs : List.Pairwise bidKeyLE l) (hts : (l.map Bid.timestamp).Nodup) :
    List.Pairwise bidPrec l := by
  have hne : List.Pairwise (fun a b : Bid => a.timestamp ≠ b.timestamp) l := by
    rw [List.Nodup, List.pairwise_map] at hts
    exact hts
  refine (hs.and hne).imp ?_
  intro a b hab
  obtain ⟨h1, h2⟩ := hab
  unfold bidKeyLE at h1; unfold bidPrec; omega

/-- Two leaderboards holding the same bids, both sorted by the comparator,
are identical as soon as no two live bids share a timestamp. -/
theorem sorted_eq_of_perm {l1 l2 : List Bid} (hp : l1.Perm l2)
    (h1 : List.Pairwise bidKeyLE l1) (h2 : List.Pairwise bidKeyLE l2)
    (hts : (l1.map Bid.timestamp).Nodup) : l1 = l2 := by
  have hts2 : (l2.map Bid.timestamp).Nodup := ((hp.map Bid.timestamp)).nodup hts
  exact List.eq_of_perm_of_sorted hp (pairwise_prec_of_keyLE_ts_nodup h1 hts)
    (pairwise_prec_of_keyLE_ts_nodup h2 hts2)

/- ═══════════════  Timestamp bookkeeping along a trace  ═══════════════ -/

/-- All live sorted entries carry admission timestamps at most `t`, and no
two of them coincide — the consequence of a strictly monotone admission
clock. -/
structure TsInv (t : Int) (s : AuctionState) : Prop where
  ts_le : ∀ b ∈ s.sortedBids, b.timestamp ≤ t
  ts_nd : (s.sortedBids.map Bid.timestamp).Nodup

theorem tsInv_mono {t t' : Int} {s : AuctionState} (h : TsInv t s) (hle : t ≤ t') :
    TsInv t' s :=
  ⟨fun b hb => le_trans (h.ts_le b hb) hle, h.ts_nd⟩

theorem updateSorted_ts_le {l : List Bid} {bid : Bid}
    (hs : List.Pairwise bidKeyLE l) {bound : Int}
    (hold : ∀ x ∈ l, x.timestamp ≤ bound) (hbid : bid.timestamp ≤ bound) :
    ∀ x ∈ updateSortedBids l bid, x.timestamp ≤ bound := by
  intro x hx
  rcases mem_updateSortedBids hs hx with rfl | hx'
  · exact hbid
  · exact hold x hx'

theorem updateSorted_ts_nodup {l : List Bid} {bid : Bid}
    (hs : List.Pairwise bidKeyLE l) (hnd : (l.map Bid.timestamp).Nodup)
    (hfresh : ∀ x ∈ l, x.timestamp ≠ bid.timestamp) :
    ((updateSortedBids l bid).map Bid.timestamp).Nodup := by
  have hperm := (updateSortedBids_perm l bid hs).map Bid.timestamp
  refine hperm.symm.nodup ?_
  simp only [List.map_cons, List.nodup_cons]
  constructor
  · intro hmem
    obtain ⟨x, hxmem, hxeq⟩ := List.mem_map.mp hmem
    exact hfresh x (List.Sublist.mem hxmem (removeUser_sublist _ l)) hxeq
  · exact List.Nodup.sublist ((removeUser_sublist _ l).map Bid.timestamp) hnd

theorem tsInv_placeBid {t : Int} (now : Int) (u : String) (a : Int)
    {s : AuctionState} (hinv : EngineInv s) (hts : TsInv t s) (hnow : t < now) :
    TsInv now (placeBid now u a s).2 := by
  unfold placeBid
  dsimp only []
  split
  · exact tsInv_mono hts (le_of_lt hnow)
  · split
    · exact tsInv_mono hts (le_of_lt hnow)
    · split
      · exact tsInv_mono hts (le_of_lt hnow)
      · split
        · exact tsInv_mono hts (le_of_lt hnow)
        · have hfresh : ∀ x ∈ s.sortedBids, x.timestamp ≠ now := by
            intro x hx
            have := hts.ts_le x hx
            omega
          have hle : ∀ x ∈ updateSortedBids s.sortedBids ⟨u, a, now⟩,
              x.timestamp ≤ now :=
            updateSorted_ts_le hinv.sorted_ord
              (fun x hx => le_of_lt (lt_of_le_of_lt (hts.ts_le x hx) hnow)) le_rfl
          have hnd : ((updateSortedBids s.sortedBids ⟨u, a, now⟩).map
              Bid.timestamp).Nodup :=
            updateSorted_ts_nodup hinv.sorted_ord hts.ts_nd hfresh
          split <;> split <;> exact ⟨hle, hnd⟩

theorem endRound_sorted_sublist (now : Int) (s : AuctionState) :
    (endRound now s).sortedBids.Sublist s.sortedBids := by
  unfold endRound endRoundPhase2 endRoundPhase1 startRound endAuction scheduleRoundEnd
  dsimp only []
  repeat' split
  all_goals
    first
      | exact List.Sublist.refl _
      | exact List.drop_sublist _ _
      | exact List.nil_sublist _

theorem tsInv_endRound {t : Int} (now : Int) {s : AuctionState} (hts : TsInv t s) :
    TsInv t (endRound now s) := by
  have hsub := endRound_sorted_sublist now s
  exact ⟨fun b hb => hts.ts_le b (List.Sublist.mem hb hsub),
         List.Nodup.sublist (hsub.map Bid.timestamp) hts.ts_nd⟩

theorem tsInv_start (plan : List RoundPlan) (db : BalanceMap) (now0 : Int) :
    TsInv now0 (startRound now0 (mkAuction plan db)) := by
  unfold startRound mkAuction endAuction scheduleRoundEnd
  dsimp only []
  split
  · exact ⟨by intro b hb; simp at hb, by simp⟩
  · split
    · exact ⟨by intro b hb; simp at hb, by simp⟩
    · rename_i h0
      exact absurd rfl h0

/- ═══════════════  Simulation between the two variants  ═══════════════ -/

/-- Correspondence between a lazy-variant state and an incremental-variant
state: every shared field agrees and the cache, when present, holds exactly
the sorted view of `bids`. -/
structure VarRel (s1 : AuctionStateL) (s2 : AuctionState) : Prop where
  plan_eq : s1.plan = s2.plan
  round_eq : s1.currentRound = s2.currentRound
  ret_eq : s1.roundEndTime = s2.roundEndTime
  timer_eq : s1.timerTarget = s2.timerTarget
  act_eq : s1.isActive = s2.isActive
  dbw_eq : s1.dbWinners = s2.dbWinners
  dbb_eq : s1.dbBalances = s2.dbBalances
  dbst_eq : s1.dbStatus = s2.dbStatus
  bal_eq : s1.balances = s2.balances
  bids_eq : s1.bids = s2.bids
  cache_ok : s1.sortedCache = none ∨
    s1.sortedCache = some (List.insertionSort bidKeyLE s1.bids)

/-- While the auction is active and live timestamps are distinct, the lazy
variant's recomputed sorted view coincides with the incrementally maintained
`sortedBids` array. -/
theorem varRel_sorted_eq {s1 : AuctionStateL} {s2 : AuctionState} (hrel : VarRel s1 s2)
    (hinv : EngineInv s2) (hts : (s2.sortedBids.map Bid.timestamp).Nodup)
    (hact : s2.isActive = true) : getSortedBidsL s1 = s2.sortedBids := by
  have hbase : getSortedBidsL s1 = List.insertionSort bidKeyLE s2.bids := by
    unfold getSortedBidsL
    rcases hrel.cache_ok with hc | hc
    · rw [hc, hrel.bids_eq]; rfl
    · rw [hc, hrel.bids_eq]; rfl
  rw [hbase]
  have hperm : (List.insertionSort bidKeyLE s2.bids).Perm s2.sortedBids :=
    (List.perm_insertionSort _ _).trans (hinv.act_perm hact)
  have hs1 : List.Pairwise bidKeyLE (List.insertionSort bidKeyLE s2.bids) :=
    List.sorted_insertionSort bidKeyLE s2.bids
  have hts1 : ((List.insertionSort bidKeyLE s2.bids).map Bid.timestamp).Nodup :=
    ((hperm.map Bid.timestamp).symm).nodup hts
  exact sorted_eq_of_perm hperm hs1 hinv.sorted_ord hts1

theorem cmw_variants_eq (K : Nat) (sorted : List Bid) (c : Prop) [Decidable c] (hc : c) :
    (if K ≤ sorted.length then
       (if K = 0 then (0:Int) else (sorted.getD (K - 1) default).amount)
     else 0)
    = (if c ∧ 0 < K ∧ K ≤ sorted.length then
         (sorted.getD (K - 1) default).amount
       else 0) := by
  by_cases hK : K = 0
  · subst hK; simp
  · by_cases hlen : K ≤ sorted.length
    · rw [if_pos hlen, if_neg hK, if_pos ⟨hc, Nat.pos_of_ne_zero hK, hlen⟩]
    · rw [if_neg hlen, if_neg (fun h => hlen h.2.2)]

theorem snipe_cond_iff (K : Nat) (sorted : List Bid) (c : Prop) [Decidable c] (a : Int) :
    (c ∧ (if K ≤ sorted.length then
            (if K = 0 then (0:Int) else (sorted.getD (K - 1) default).amount)
          else 0) < a ∧
       0 < (if K ≤ sorted.length then
              (if K = 0 then (0:Int) else (sorted.getD (K - 1) default).amount)
            else 0))
    ↔ (c ∧ (if c ∧ 0 < K ∧ K ≤ sorted.length then
              (sorted.getD (K - 1) default).amount else 0) < a ∧
         0 < (if c ∧ 0 < K ∧ K ≤ sorted.length then
                (sorted.getD (K - 1) default).amount else 0)) := by
  constructor
  · rintro ⟨hc, h1, h2⟩
    rw [← cmw_variants_eq K sorted c hc]
    exact ⟨hc, h1, h2⟩
  · rintro ⟨hc, h1, h2⟩
    rw [cmw_variants_eq K sorted c hc]
    exact ⟨hc, h1, h2⟩

theorem varRel_placeBid {t : Int} (now : Int) (u : String) (a : Int)
    {s1 : AuctionStateL} {s2 : AuctionState} (hrel : VarRel s1 s2)
    (hinv : EngineInv s2) (hts : TsInv t s2) :
    (placeBidL now u a s1).1 = (placeBid now u a s2).1 ∧
      VarRel (placeBidL now u a s1).2 (placeBid now u a s2).2 := by
  unfold placeBid placeBidL
  dsimp only []
  rw [hrel.act_eq, hrel.bids_eq, hrel.bal_eq, hrel.ret_eq, hrel.plan_eq,
    hrel.round_eq, hrel.timer_eq, hrel.dbw_eq, hrel.dbb_eq, hrel.dbst_eq]
  split
  · exact ⟨rfl, hrel⟩
  · rename_i hact1
    split
    · exact ⟨rfl, hrel⟩
    · rename_i hpos1
      split
      · exact ⟨rfl, hrel⟩
      · rename_i hcb1
        split
        · exact ⟨rfl, hrel⟩
        · rename_i hbal1
          have hact2 : s2.isActive = true := by
            cases hx : s2.isActive
            · exact absurd hx hact1
            · rfl
          have hsort : getSortedBidsL s1 = s2.sortedBids :=
            varRel_sorted_eq hrel hinv hts.ts_nd hact2
          rw [hsort]
          simp only [snipe_cond_iff]
          repeat' split
          all_goals
            exact ⟨rfl, ⟨rfl, rfl, rfl, rfl, rfl, rfl, rfl, rfl, rfl, rfl, Or.inl rfl⟩⟩

theorem varRel_endRound {t : Int} (now : Int) {s1 : AuctionStateL} {s2 : AuctionState}
    (hrel : VarRel s1 s2) (hinv : EngineInv s2) (hts : TsInv t s2) :
    VarRel (endRoundL now s1) (endRound now s2) := by
  unfold endRound endRoundL
  rw [hrel.act_eq]
  split
  · rename_i hact2
    have hsort : getSortedBidsL s1 = s2.sortedBids :=
      varRel_sorted_eq hrel hinv hts.ts_nd hact2
    unfold endRoundPhase2L endRoundPhase2 endRoundPhase1L endRoundPhase1
      startRoundL startRound endAuctionL endAuction scheduleRoundEndL scheduleRoundEnd
      getGiftsAwardedL getGiftsAwarded
    dsimp only []
    simp only [hrel.plan_eq, hrel.round_eq, hrel.ret_eq, hrel.timer_eq, hrel.act_eq,
      hrel.dbw_eq, hrel.dbb_eq, hrel.dbst_eq, hrel.bal_eq, hrel.bids_eq, hsort]
    repeat' split
    all_goals exact ⟨rfl, rfl, rfl, rfl, rfl, rfl, rfl, rfl, rfl, rfl, Or.inl rfl⟩
  · exact hrel

theorem varRel_start (plan : List RoundPlan) (db : BalanceMap) (now0 : Int) :
    VarRel (startRoundL now0 (mkAuctionL plan db))
      (startRound now0 (mkAuction plan db)) := by
  unfold startRoundL startRound mkAuctionL mkAuction endAuctionL endAuction
    scheduleRoundEndL scheduleRoundEnd
  dsimp only []
  repeat' split
  all_goals exact ⟨rfl, rfl, rfl, rfl, rfl, rfl, rfl, rfl, rfl, rfl, Or.inl rfl⟩

theorem varRel_run :
    ∀ (events : List Ev) {t : Int} {s1 : AuctionStateL} {s2 : AuctionState},
      VarRel s1 s2 → EngineInv s2 → TsInv t s2 →
      List.Chain (· < ·) t (events.map evTime) →
      (runL s1 events).2 = (runI s2 events).2 ∧
        VarRel (runL s1 events).1 (runI s2 events).1 ∧
        EngineInv (runI s2 events).1 ∧
        (∃ t', TsInv t' (runI s2 events).1) := by
  intro events
  induction events with
  | nil =>
    intro t s1 s2 hrel hinv hts _
    exact ⟨rfl, hrel, hinv, ⟨t, hts⟩⟩
  | cons e rest ih =>
    intro t s1 s2 hrel hinv hts hchain
    cases e with
    | bid now u a =>
      rw [List.map_cons, List.chain_cons] at hchain
      obtain ⟨hlt, hchain2⟩ := hchain
      have hstep := varRel_placeBid now u a hrel hinv hts
      have hinv2 := inv_placeBid now u a hinv
      have hts2 := tsInv_placeBid now u a hinv hts hlt
      have hrest := ih hstep.2 hinv2 hts2 hchain2
      refine ⟨?_, hrest.2⟩
      show (placeBidL now u a s1).1 :: (runL (placeBidL now u a s1).2 rest).2
        = (placeBid now u a s2).1 :: (runI (placeBid now u a s2).2 rest).2
      rw [hstep.1, hrest.1]
    | fire now =>
      rw [List.map_cons, List.chain_cons] at hchain
      obtain ⟨hlt, hchain2⟩ := hchain
      have hstep := varRel_endRound now hrel hinv hts
      have hinv2 := inv_endRound now hinv
      have hts2 : TsInv now (endRound now s2) :=
        tsInv_mono (tsInv_endRound now hts) (le_of_lt hlt)
      exact ih hstep hinv2 hts2 hchain2

/- ═══════════════  Lemmas: gift numbering and the balance map  ═══════════════ -/

theorem mkWinnersFrom_gift_numbers :
    ∀ (l : List Bid) (offset : Nat),
      (mkWinnersFrom offset l).map Winner.gift_number
        = List.range' (offset + 1) l.length := by
  intro l
  induction l with
  | nil => intro offset; simp [mkWinnersFrom]
  | cons b rest ih =>
    intro offset
    simp only [mkWinnersFrom, List.map_cons, List.length_cons]
    rw [ih (offset + 1), List.range'_succ]

theorem mkWinnersFrom_users :
    ∀ (l : List Bid) (offset : Nat),
      (mkWinnersFrom offset l).map Winner.user_id = l.map Bid.userId := by
  intro l
  induction l with
  | nil => intro offset; simp [mkWinnersFrom]
  | cons b rest ih =>
    intro offset
    simp only [mkWinnersFrom, List.map_cons]
    rw [ih (offset + 1)]

theorem mkWinnersFrom_stars :
    ∀ (l : List Bid) (offset : Nat),
      (mkWinnersFrom offset l).map Winner.stars = l.map Bid.amount := by
  intro l
  induction l with
  | nil => intro offset; simp [mkWinnersFrom]
  | cons b rest ih =>
    intro offset
    simp only [mkWinnersFrom, List.map_cons]
    rw [ih (offset + 1)]

theorem BalanceManager.get_set (m : BalanceMap) (u : String) (v : Int) :
    BalanceManager.get (BalanceManager.set m u v) u = v := by
  induction m with
  | nil => simp [BalanceManager.get, BalanceManager.set]
  | cons p rest ih =>
    obtain ⟨k, w⟩ := p
    simp only [BalanceManager.set]
    by_cases hk : k = u
    · rw [if_pos hk]; simp [BalanceManager.get]
    · rw [if_neg hk]
      simp only [BalanceManager.get, if_neg hk]
      exact ih

/-- The current stored bid of a user, `bids.get(userId)?.amount ?? 0`. -/
def currentBidOf (s : AuctionState) (u : String) : Int :=
  ((bidsFind u s.bids).map Bid.amount).getD 0

/- ═══════════════  Claim theorems  ═══════════════ -/

/-- C1: in the carry-over scenario (plan `[{K=1,t=5},{K=1,t=5}]`, balances
`{A:100, B:100}`, round-1 bids A=10 and B=20, no round-2 bids) the flow
conservation equation holds — total debited 30 = total refunded 0 + Σ stars
30 — but the final persisted balances are A=100 and B=100, not the A=90 and
B=80 the claim states: `startRound` of round 2 reloads the repository
balance snapshot, silently discarding the round-1 in-memory debits, and
`endAuction` then persists the reloaded values. -/
theorem conservation_carryover_eval :
    (BalanceManager.get (runAuction [⟨1, 1, 5⟩, ⟨2, 1, 5⟩] [("A", 100), ("B", 100)] 0
        [.bid 1000 "A" 10, .bid 2000 "B" 20, .fire 12000, .fire 17000]).1.dbBalances "A"
      = 100) ∧
    (BalanceManager.get (runAuction [⟨1, 1, 5⟩, ⟨2, 1, 5⟩] [("A", 100), ("B", 100)] 0
        [.bid 1000 "A" 10, .bid 2000 "B" 20, .fire 12000, .fire 17000]).1.dbBalances "B"
      = 100) ∧
    ((runAuction [⟨1, 1, 5⟩, ⟨2, 1, 5⟩] [("A", 100), ("B", 100)] 0
        [.bid 1000 "A" 10, .bid 2000 "B" 20, .fire 12000, .fire 17000]).1.dbStatus
      = .finished) ∧
    ((runAuction [⟨1, 1, 5⟩, ⟨2, 1, 5⟩] [("A", 100), ("B", 100)] 0
        [.bid 1000 "A" 10, .bid 2000 "B" 20, .fire 12000, .fire 17000]).1.dbWinners
      = [⟨"B", 20, 1⟩, ⟨"A", 10, 2⟩]) ∧
    ((runAuction [⟨1, 1, 5⟩, ⟨2, 1, 5⟩] [("A", 100), ("B", 100)] 0
        [.bid 1000 "A" 10, .bid 2000 "B" 20, .fire 12000, .fire 17000]).1.totalDebited
      = 30) ∧
    ((runAuction [⟨1, 1, 5⟩, ⟨2, 1, 5⟩] [("A", 100), ("B", 100)] 0
        [.bid 1000 "A" 10, .bid 2000 "B" 20, .fire 12000, .fire 17000]).1.totalRefunded
      = 0) ∧
    ((runAuction [⟨1, 1, 5⟩, ⟨2, 1, 5⟩] [("A", 100), ("B", 100)] 0
        [.bid 1000 "A" 10, .bid 2000 "B" 20, .fire 12000, .fire 17000]).1.totalDebited
      = (runAuction [⟨1, 1, 5⟩, ⟨2, 1, 5⟩] [("A", 100), ("B", 100)] 0
          [.bid 1000 "A" 10, .bid 2000 "B" 20, .fire 12000, .fire 17000]).1.totalRefunded
        + ((runAuction [⟨1, 1, 5⟩, ⟨2, 1, 5⟩] [("A", 100), ("B", 100)] 0
            [.bid 1000 "A" 10, .bid 2000 "B" 20, .fire 12000, .fire 17000]).1.dbWinners.map
              Winner.stars).sum) := by
  decide

/-- C5: at the spec's own recovery scenario (plan with gift counts
`[2, 3, 1]`, four persisted winners) the loop in `recoverFromDB` derives
round 2 into a local variable, but the recovered engine's `currentRound` is
0 — the derived value is never passed to the constructed `Auction` — and
round 1 is restarted; note the claim's own formula (smallest r with
`Σ_{i≤r} K_i ≥ 4`) would give 1, matching neither. -/
theorem recover_eval :
    deriveRecoveryRound [⟨1, 2, 10⟩, ⟨2, 3, 10⟩, ⟨3, 1, 10⟩] 4 = 2 ∧
    ¬ deriveRecoveryRound [⟨1, 2, 10⟩, ⟨2, 3, 10⟩, ⟨3, 1, 10⟩] 4 = 1 ∧
    (recoverOne 0 [] ⟨[⟨1, 2, 10⟩, ⟨2, 3, 10⟩, ⟨3, 1, 10⟩],
      [⟨"u1", 5, 1⟩, ⟨"u2", 5, 2⟩, ⟨"u3", 5, 3⟩, ⟨"u4", 5, 4⟩]⟩).currentRound = 0 ∧
    (recoverOne 0 [] ⟨[⟨1, 2, 10⟩, ⟨2, 3, 10⟩, ⟨3, 1, 10⟩],
      [⟨"u1", 5, 1⟩, ⟨"u2", 5, 2⟩, ⟨"u3", 5, 3⟩, ⟨"u4", 5, 4⟩]⟩).isActive = true := by
  decide

/-- C4 counterexample: after round 1 of a two-round auction ends at
T = 12000 and `endRound` has run its synchronous prefix (winner removed,
commit still pending), `isActive` is still true — so a further `endRound`
invocation would pass the guard rather than return immediately — and a
`placeBid` with assigned timestamp 12500 ≥ T is accepted, not rejected with
NotActive. -/
theorem isActive_window_cex :
    ((endRoundPhase1 (runAuction [⟨1, 1, 5⟩, ⟨2, 1, 5⟩] [("A", 100), ("B", 100)] 0
        [.bid 1000 "A" 10, .bid 2000 "B" 20]).1).1.isActive = true) ∧
    ((placeBid 12500 "A" 30 (endRoundPhase1 (runAuction [⟨1, 1, 5⟩, ⟨2, 1, 5⟩]
        [("A", 100), ("B", 100)] 0
        [.bid 1000 "A" 10, .bid 2000 "B" 20]).1).1).1 = .ok 30) := by
  decide

/-- C6 counterexample: plan `[{K=2,t=10},{K=1,t=5}]` with a single bidder in
each round records gift numbers 1 and 3 over a 3-gift auction — gift
number 2 is never assigned, so the recorded values are not exactly
`1 … Σ K_i` and have a gap. -/
theorem gift_numbers_cex :
    ((runAuction [⟨1, 2, 10⟩, ⟨2, 1, 5⟩] [("A", 100), ("C", 100)] 0
        [.bid 1000 "A" 50, .fire 10000, .bid 11000 "C" 30, .fire 15000]).1.dbWinners.map
          Winner.gift_number = [1, 3]) ∧
    getTotalGifts (runAuction [⟨1, 2, 10⟩, ⟨2, 1, 5⟩] [("A", 100), ("C", 100)] 0
        [.bid 1000 "A" 50, .fire 10000, .bid 11000 "C" 30, .fire 15000]).1 = 3 ∧
    2 ∉ (runAuction [⟨1, 2, 10⟩, ⟨2, 1, 5⟩] [("A", 100), ("C", 100)] 0
        [.bid 1000 "A" 50, .fire 10000, .bid 11000 "C" 30, .fire 15000]).1.dbWinners.map
          Winner.gift_number := by
  decide

/-- C7 counterexample: in the incremental variant, after the auction ends
(`endAuction` refunds the loser and clears `bids` but not `sortedBids`) the
bids map is empty while `sortedBids` still holds the loser's entry, so the
two structures do not contain the same elements at the post-`endAuction`
boundary. -/
theorem leaderboard_invariant_cex :
    ((runAuction [⟨1, 1, 5⟩] [("A", 100), ("B", 100)] 0
        [.bid 1000 "A" 10, .bid 2000 "B" 20, .fire 12000]).1.bids = []) ∧
    ((runAuction [⟨1, 1, 5⟩] [("A", 100), ("B", 100)] 0
        [.bid 1000 "A" 10, .bid 2000 "B" 20, .fire 12000]).1.sortedBids
      = [⟨"A", 10, 1000⟩]) ∧
    ¬ ((runAuction [⟨1, 1, 5⟩] [("A", 100), ("B", 100)] 0
        [.bid 1000 "A" 10, .bid 2000 "B" 20, .fire 12000]).1.bids.Perm
       (runAuction [⟨1, 1, 5⟩] [("A", 100), ("B", 100)] 0
        [.bid 1000 "A" 10, .bid 2000 "B" 20, .fire 12000]).1.sortedBids) := by
  decide

/-- C8 counterexample: two bids of equal amount placed in the same
millisecond (identical clock readings for both variants).  The lazy
variant's stable resort ranks A before B, the incremental variant's binary
search inserts B before A; the leaderboards differ and with K = 1 the two
variants record different winners. -/
theorem variants_equivalent_cex :
    (getLeaderboardL (runAuctionL [⟨1, 1, 10⟩] [("A", 100), ("B", 100)] 0
        [.bid 1000 "A" 10, .bid 1000 "B" 10]).1 50
      = [("A", 10), ("B", 10)]) ∧
    (getLeaderboard (runAuction [⟨1, 1, 10⟩] [("A", 100), ("B", 100)] 0
        [.bid 1000 "A" 10, .bid 1000 "B" 10]).1 50
      = [("B", 10), ("A", 10)]) ∧
    ((runAuctionL [⟨1, 1, 10⟩] [("A", 100), ("B", 100)] 0
        [.bid 1000 "A" 10, .bid 1000 "B" 10, .fire 10000]).1.dbWinners
      = [⟨"A", 10, 1⟩]) ∧
    ((runAuction [⟨1, 1, 10⟩] [("A", 100), ("B", 100)] 0
        [.bid 1000 "A" 10, .bid 1000 "B" 10, .fire 10000]).1.dbWinners
      = [⟨"B", 10, 1⟩]) := by
  decide

/-- C2: `placeBid` is a total function; it rejects with the typed failure of
the first matching guard, in source order — NotActive, then NonPositive,
then NotHigher (carrying the current bid), then InsufficientFunds (carrying
the needed delta and the balance) — it rejects exactly when one of the four
conditions holds, and every rejection returns the state unchanged (bids,
sortedBids, roundEndTime, timerTarget and all balances included). -/
theorem placeBid_rejections (now : Int) (u : String) (a : Int) (s : AuctionState) :
    (s.isActive = false →
       placeBid now u a s = (.err .notActive, s)) ∧
    (s.isActive = true → a ≤ 0 →
       placeBid now u a s = (.err .nonPositive, s)) ∧
    (s.isActive = true → 0 < a → a ≤ currentBidOf s u →
       placeBid now u a s = (.err (.notHigher (currentBidOf s u)), s)) ∧
    (s.isActive = true → 0 < a → currentBidOf s u < a →
       BalanceManager.get s.balances u < a - currentBidOf s u →
       placeBid now u a s = (.err (.insufficientFunds (a - currentBidOf s u)
         (BalanceManager.get s.balances u)), s)) ∧
    ((∃ e, (placeBid now u a s).1 = .err e) ↔
       (s.isActive = false ∨ a ≤ 0 ∨ a ≤ currentBidOf s u ∨
        BalanceManager.get s.balances u < a - currentBidOf s u)) := by
  unfold placeBid currentBidOf
  dsimp only []
  refine ⟨?_, ?_, ?_, ?_, ?_, ?_⟩
  · intro h; rw [if_pos h]
  · intro h1 h2
    rw [if_neg (by rw [h1]; simp), if_pos h2]
  · intro h1 h2 h3
    rw [if_neg (by rw [h1]; simp), if_neg (by omega), if_pos h3]
  · intro h1 h2 h3 h4
    rw [if_neg (by rw [h1]; simp), if_neg (by omega), if_neg (by omega), if_pos h4]
  · rintro ⟨e, he⟩
    by_cases c1 : s.isActive = false
    · exact Or.inl c1
    by_cases c2 : a ≤ 0
    · exact Or.inr (Or.inl c2)
    by_cases c3 : a ≤ ((bidsFind u s.bids).map Bid.amount).getD 0
    · exact Or.inr (Or.inr (Or.inl c3))
    by_cases c4 : BalanceManager.get s.balances u
        < a - ((bidsFind u s.bids).map Bid.amount).getD 0
    · exact Or.inr (Or.inr (Or.inr c4))
    exfalso
    rw [if_neg c1, if_neg c2, if_neg c3, if_neg c4] at he
    split at he <;> split at he <;> simp at he
  · intro hdisj
    by_cases c1 : s.isActive = false
    · exact ⟨.notActive, by rw [if_pos c1]⟩
    by_cases c2 : a ≤ 0
    · exact ⟨.nonPositive, by rw [if_neg c1, if_pos c2]⟩
    by_cases c3 : a ≤ ((bidsFind u s.bids).map Bid.amount).getD 0
    · exact ⟨.notHigher _, by rw [if_neg c1, if_neg c2, if_pos c3]⟩
    by_cases c4 : BalanceManager.get s.balances u
        < a - ((bidsFind u s.bids).map Bid.amount).getD 0
    · exact ⟨.insufficientFunds _ _, by rw [if_neg c1, if_neg c2, if_neg c3, if_pos c4]⟩
    exfalso
    rcases hdisj with h | h | h | h
    · exact c1 h
    · exact c2 h
    · exact c3 h
    · exact c4 h

/-- The claim's anti-snipe displacement threshold, evaluated before the new
bid is inserted: the K-th ranked amount when the top-K is full, else 0
(K being the current round's `count_of_gifts`). -/
def antiSnipeThreshold (s : AuctionState) : Int :=
  if (s.plan.getD s.currentRound default).count_of_gifts ≤ s.sortedBids.length then
    (s.sortedBids.getD ((s.plan.getD s.currentRound default).count_of_gifts - 1)
      default).amount
  else 0

/-- C3: for every accepted `placeBid` in a state with a current round plan
(K ≥ 1), with `remaining = roundEndTime − now` and the threshold taken from
the pre-insertion leaderboard, the engine sets `roundEndTime` to
`now + 10 s` and re-arms the timer exactly when `0 < remaining < 5 s`, the
threshold is positive, and the bid beats it; otherwise both are unchanged.
In particular no extension occurs while `|sorted| < K`. -/
theorem placeBid_antiSnipe (now : Int) (u : String) (a : Int) (s : AuctionState)
    (hact : s.isActive = true) (hpos : 0 < a) (hcb : currentBidOf s u < a)
    (hbal : a - currentBidOf s u ≤ BalanceManager.get s.balances u)
    (hround : s.currentRound < s.plan.length)
    (hK : 0 < (s.plan.getD s.currentRound default).count_of_gifts) :
    ((placeBid now u a s).2.roundEndTime
       = if 0 < s.roundEndTime - now ∧ s.roundEndTime - now < 5 * 1000 ∧
            0 < antiSnipeThreshold s ∧ antiSnipeThreshold s < a
         then now + 10 * 1000 else s.roundEndTime) ∧
    ((placeBid now u a s).2.timerTarget
       = if 0 < s.roundEndTime - now ∧ s.roundEndTime - now < 5 * 1000 ∧
            0 < antiSnipeThreshold s ∧ antiSnipeThreshold s < a
         then some (now + 10 * 1000) else s.timerTarget) ∧
    (s.sortedBids.length < (s.plan.getD s.currentRound default).count_of_gifts →
       (placeBid now u a s).2.roundEndTime = s.roundEndTime ∧
       (placeBid now u a s).2.timerTarget = s.timerTarget) := by
  unfold currentBidOf at hcb hbal
  have hKeq : ((s.plan.get? s.currentRound).map RoundPlan.count_of_gifts).getD 0
      = (s.plan.getD s.currentRound default).count_of_gifts := by
    rw [List.get?_eq_getElem?, List.getElem?_eq_getElem hround,
      List.getD_eq_getElem _ _ hround]
    rfl
  unfold placeBid antiSnipeThreshold
  dsimp only []
  rw [if_neg (by rw [hact]; simp), if_neg (by omega), if_neg (by omega),
    if_neg (by omega), hKeq]
  by_cases hlen : (s.plan.getD s.currentRound default).count_of_gifts
      ≤ s.sortedBids.length
  · have hth : (if (s.plan.getD s.currentRound default).count_of_gifts
          ≤ s.sortedBids.length then
        (s.sortedBids.getD ((s.plan.getD s.currentRound default).count_of_gifts - 1)
          default).amount
      else (0:Int)) = (s.sortedBids.getD
        ((s.plan.getD s.currentRound default).count_of_gifts - 1) default).amount :=
      if_pos hlen
    rw [hth]
    by_cases hLast : 0 < s.roundEndTime - now ∧ s.roundEndTime - now < 5 * 1000
    · have hcmw : (if (0 < s.roundEndTime - now ∧ s.roundEndTime - now < 5 * 1000) ∧
            0 < (s.plan.getD s.currentRound default).count_of_gifts ∧
            (s.plan.getD s.currentRound default).count_of_gifts ≤ s.sortedBids.length
          then (s.sortedBids.getD
            ((s.plan.getD s.currentRound default).count_of_gifts - 1) default).amount
          else (0:Int)) = (s.sortedBids.getD
            ((s.plan.getD s.currentRound default).count_of_gifts - 1) default).amount :=
        if_pos ⟨hLast, hK, hlen⟩
      rw [hcmw]
      have hiff : ((0 < s.roundEndTime - now ∧ s.roundEndTime - now < 5 * 1000) ∧
          (s.sortedBids.getD ((s.plan.getD s.currentRound default).count_of_gifts - 1)
            default).amount < a ∧
          0 < (s.sortedBids.getD
            ((s.plan.getD s.currentRound default).count_of_gifts - 1) default).amount)
          ↔ (0 < s.roundEndTime - now ∧ s.roundEndTime - now < 5 * 1000 ∧
             0 < (s.sortedBids.getD
               ((s.plan.getD s.currentRound default).count_of_gifts - 1) default).amount ∧
             (s.sortedBids.getD
               ((s.plan.getD s.currentRound default).count_of_gifts - 1) default).amount
               < a) := by
        tauto
      simp only [hiff]
      refine ⟨?_, ?_, ?_⟩
      · split <;> rfl
      · split <;> rfl
      · intro hshort
        exact absurd hlen (by omega)
    · have hcmw : (if (0 < s.roundEndTime - now ∧ s.roundEndTime - now < 5 * 1000) ∧
            0 < (s.plan.getD s.currentRound default).count_of_gifts ∧
            (s.plan.getD s.currentRound default).count_of_gifts ≤ s.sortedBids.length
          then (s.sortedBids.getD
            ((s.plan.getD s.currentRound default).count_of_gifts - 1) default).amount
          else (0:Int)) = 0 :=
        if_neg (fun hc => hLast hc.1)
      rw [hcmw]
      refine ⟨?_, ?_, ?_⟩
      · split
        · rename_i h; exact absurd h (by omega)
        · split
          · rename_i h; exact absurd h (by omega)
          · rfl
      · split
        · rename_i h; exact absurd h (by omega)
        · split
          · rename_i h; exact absurd h (by omega)
          · rfl
      · intro hshort
        refine ⟨?_, ?_⟩ <;>
          · split
            · rename_i h; exact absurd h (by omega)
            · rfl
  · have hth : (if (s.plan.getD s.currentRound default).count_of_gifts
          ≤ s.sortedBids.length then
        (s.sortedBids.getD ((s.plan.getD s.currentRound default).count_of_gifts - 1)
          default).amount
      else (0:Int)) = 0 := if_neg hlen
    have hcmw : (if (0 < s.roundEndTime - now ∧ s.roundEndTime - now < 5 * 1000) ∧
          0 < (s.plan.getD s.currentRound default).count_of_gifts ∧
          (s.plan.getD s.currentRound default).count_of_gifts ≤ s.sortedBids.length
        then (s.sortedBids.getD
          ((s.plan.getD s.currentRound default).count_of_gifts - 1) default).amount
        else (0:Int)) = 0 :=
      if_neg (fun hc => hlen hc.2.2)
    rw [hth, hcmw]
    refine ⟨?_, ?_, ?_⟩
    · split
      · rename_i h; exact absurd h (by omega)
      · split
        · rename_i h; exact absurd h (by omega)
        · rfl
    · split
      · rename_i h; exact absurd h (by omega)
      · split
        · rename_i h; exact absurd h (by omega)
        · rfl
    · intro hshort
      refine ⟨?_, ?_⟩ <;>
        · split
          · rename_i h; exact absurd h (by omega)
          · rfl


/-- C4 (amended): `isActive` gates `placeBid` and `endRound`, but it is
cleared only by `endAuction`, not at `endRound` entry — when inactive,
`endRound` returns immediately without effect and every `placeBid` is
rejected with NotActive; while a non-final round is being closed the flag
stays true through `endRound`'s synchronous prefix, so bids arriving in the
commit window are still admitted (see the counterexample). -/
theorem isActive_semantics (s : AuctionState) (now now2 : Int) (u : String) (a : Int) :
    (s.isActive = false → endRound now s = s) ∧
    (s.isActive = false → (placeBid now2 u a s).1 = .err .notActive) ∧
    (s.isActive = true → (endRoundPhase1 s).1.isActive = true) := by
  refine ⟨?_, ?_, ?_⟩
  · intro h
    unfold endRound
    rw [h]
    simp
  · intro h
    unfold placeBid
    dsimp only []
    rw [if_pos h]
  · intro h
    unfold endRoundPhase1
    dsimp only []
    exact h

/-- C6 (amended): at round close the winners are the leaderboard prefix in
rank order, and the i-th of them (1-based) receives gift number
`Σ_{j<r} K_j + i`: the recorded gift numbers of the round are exactly the
consecutive block starting at `Σ_{j<r} K_j + 1`, of length
`min K_r |sorted|` — the full block `… Σ_{j≤r} K_j` only when the round has
at least `K_r` bids, an under-filled round leaving its trailing numbers
unassigned. -/
theorem gift_numbers_per_round (s : AuctionState)
    (_hround : s.currentRound < s.plan.length) :
    ((endRoundPhase1 s).2).map Winner.gift_number
      = List.range' (getGiftsAwarded s + 1)
          (min (s.plan.getD s.currentRound default).count_of_gifts
            s.sortedBids.length) ∧
    ((endRoundPhase1 s).2).map Winner.user_id
      = (s.sortedBids.take
          (s.plan.getD s.currentRound default).count_of_gifts).map Bid.userId ∧
    ((endRoundPhase1 s).2).map Winner.stars
      = (s.sortedBids.take
          (s.plan.getD s.currentRound default).count_of_gifts).map Bid.amount := by
  unfold endRoundPhase1
  dsimp only []
  refine ⟨?_, ?_, ?_⟩
  · rw [mkWinnersFrom_gift_numbers, List.length_take]
  · rw [mkWinnersFrom_users]
  · rw [mkWinnersFrom_stars]

/-- C7 (amended): at every boundary reachable by a trace — after the
initial `startRound` and after each `placeBid` and timer-fired `endRound` —
the incremental variant keeps `sortedBids` ordered by (amount desc,
timestamp asc) with unique user ids on both containers, and while the
auction is active `bids` and `sortedBids` hold the same multiset of bids;
after the final `endAuction` the bids map is empty while `sortedBids` may
retain the refunded losers.  The lazy variant's sorted view is recomputed
from `bids`, so it is a permutation of `bids` and correctly ordered
whenever the cache is cold. -/
theorem leaderboard_invariant (plan : List RoundPlan) (db : BalanceMap)
    (now0 : Int) (events : List Ev) :
    (List.Pairwise bidKeyLE (runAuction plan db now0 events).1.sortedBids ∧
     ((runAuction plan db now0 events).1.bids.map Bid.userId).Nodup ∧
     ((runAuction plan db now0 events).1.sortedBids.map Bid.userId).Nodup ∧
     ((runAuction plan db now0 events).1.isActive = true →
       (runAuction plan db now0 events).1.bids.Perm
         (runAuction plan db now0 events).1.sortedBids) ∧
     ((runAuction plan db now0 events).1.isActive = false →
       (runAuction plan db now0 events).1.bids = [])) ∧
    (∀ sL : AuctionStateL, sL.sortedCache = none →
      (getSortedBidsL sL).Perm sL.bids ∧
        List.Pairwise bidKeyLE (getSortedBidsL sL)) := by
  constructor
  · have h := inv_runAuction plan db now0 events
    exact ⟨h.sorted_ord, h.bids_ids, h.sorted_ids, h.act_perm, h.inact_empty⟩
  · intro sL hc
    unfold getSortedBidsL
    rw [hc]
    exact ⟨List.perm_insertionSort _ _,
      List.sorted_insertionSort bidKeyLE sL.bids⟩

/-- C8 (amended): under a strictly increasing event clock — which the spec
guarantees for accepted bids ("bids accepted in sequence receive strictly
increasing timestamps") — the two Auction implementations are
observationally equivalent on every identical trace of `startRound`,
`placeBid` and timer-fired `endRound` operations: they return the same
BidResults in order, record the same winners with the same stars and gift
numbers, and while the auction is running they show the same leaderboard.
Without that hypothesis the claim fails: two bids with equal amount and
equal timestamp are ranked differently by the two variants (see the
counterexample). -/
theorem variants_equivalent (plan : List RoundPlan) (db : BalanceMap) (now0 : Int)
    (events : List Ev)
    (hchain : List.Chain (· < ·) now0 (events.map evTime)) :
    (runAuctionL plan db now0 events).2 = (runAuction plan db now0 events).2 ∧
    (runAuctionL plan db now0 events).1.dbWinners
      = (runAuction plan db now0 events).1.dbWinners ∧
    ((runAuction plan db now0 events).1.isActive = true →
      ∀ limit, getLeaderboardL (runAuctionL plan db now0 events).1 limit
        = getLeaderboard (runAuction plan db now0 events).1 limit) := by
  have h0inv : EngineInv (startRound now0 (mkAuction plan db)) :=
    inv_startRound now0 (inv_mkAuction plan db) (Or.inr rfl)
  have hrun := varRel_run events (varRel_start plan db now0) h0inv
    (tsInv_start plan db now0) hchain
  refine ⟨hrun.1, (hrun.2.1).dbw_eq, ?_⟩
  intro hact limit
  obtain ⟨t2, hts2⟩ := hrun.2.2.2
  have hsort := varRel_sorted_eq hrun.2.1 hrun.2.2.1 hts2.ts_nd hact
  unfold getLeaderboardL getLeaderboard runAuctionL runAuction
  rw [hsort]

/-- C9: `BalanceManager.remove` (the spec's `tryDebit`) returns true and
debits the balance by exactly the requested amount when the balance
suffices, else returns false leaving the map unchanged; and inside every
accepted `placeBid`, the debit of `delta = amount − currentBid` cannot fail,
step 4 having just established `delta ≤ balance` — the engine's balances
after acceptance are exactly the debited map. -/
theorem tryDebit_spec (m : BalanceMap) (u : String) (n : Int)
    (now : Int) (a : Int) (s : AuctionState) :
    (n ≤ BalanceManager.get m u →
       BalanceManager.remove m u n
         = (true, BalanceManager.set m u (BalanceManager.get m u - n)) ∧
       BalanceManager.get (BalanceManager.remove m u n).2 u
         = BalanceManager.get m u - n) ∧
    (BalanceManager.get m u < n → BalanceManager.remove m u n = (false, m)) ∧
    (s.isActive = true → 0 < a → currentBidOf s u < a →
       a - currentBidOf s u ≤ BalanceManager.get s.balances u →
       (BalanceManager.remove s.balances u (a - currentBidOf s u)).1 = true ∧
       (placeBid now u a s).1 = .ok a ∧
       (placeBid now u a s).2.balances
         = (BalanceManager.remove s.balances u (a - currentBidOf s u)).2) := by
  refine ⟨?_, ?_, ?_⟩
  · intro h
    unfold BalanceManager.remove
    dsimp only []
    rw [if_neg (by omega)]
    exact ⟨rfl, by rw [BalanceManager.get_set]⟩
  · intro h
    unfold BalanceManager.remove
    dsimp only []
    rw [if_pos h]
  · intro hact hpos hcb hbal
    unfold currentBidOf at hcb hbal
    refine ⟨?_, ?_, ?_⟩
    · unfold BalanceManager.remove currentBidOf
      dsimp only []
      rw [if_neg (by omega)]
    · unfold placeBid
      dsimp only []
      rw [if_neg (by rw [hact]; simp), if_neg (by omega), if_neg (by omega),
        if_neg (by omega)]
      split <;> split <;> rfl
    · unfold placeBid currentBidOf
      dsimp only []
      rw [if_neg (by rw [hact]; simp), if_neg (by omega), if_neg (by omega),
        if_neg (by omega)]
      split <;> split <;> rfl

/-- C10: when every plan entry awards at least one gift and every live bid
amount is positive, `getMinWinningBid` returns 0 exactly when no current
round plan exists; with a plan it returns 1 while the leaderboard is
under-filled and the K-th ranked amount plus one otherwise — never the K-th
amount itself, and never 0. -/
theorem getMinWinningBid_spec (s : AuctionState)
    (hpos : ∀ b ∈ s.sortedBids, 0 < b.amount)
    (hplan : ∀ rp ∈ s.plan, 0 < rp.count_of_gifts) :
    (s.plan.length ≤ s.currentRound → getMinWinningBid s = 0) ∧
    (∀ rp, s.plan.get? s.currentRound = some rp →
      (s.sortedBids.length < rp.count_of_gifts → getMinWinningBid s = 1) ∧
      (rp.count_of_gifts ≤ s.sortedBids.length →
        getMinWinningBid s
          = (s.sortedBids.getD (rp.count_of_gifts - 1) default).amount + 1 ∧
        getMinWinningBid s
          ≠ (s.sortedBids.getD (rp.count_of_gifts - 1) default).amount) ∧
      getMinWinningBid s ≠ 0) := by
  constructor
  · intro h
    unfold getMinWinningBid
    rw [List.get?_eq_getElem?, List.getElem?_eq_none h]
  · intro rp hrp
    have hK : 0 < rp.count_of_gifts := by
      refine hplan rp ?_
      exact List.get?_mem hrp
    unfold getMinWinningBid
    rw [hrp]
    dsimp only []
    by_cases hlen : s.sortedBids.length < rp.count_of_gifts
    · rw [if_pos hlen]
      exact ⟨fun _ => rfl, fun hc => absurd hc (by omega), by omega⟩
    · rw [if_neg hlen]
      have hidx : rp.count_of_gifts - 1 < s.sortedBids.length := by omega
      have hmem : s.sortedBids.getD (rp.count_of_gifts - 1) default ∈ s.sortedBids := by
        rw [List.getD_eq_getElem _ _ hidx]
        exact List.getElem_mem hidx
      have hamt := hpos _ hmem
      exact ⟨fun hc => absurd hc hlen, fun _ => ⟨rfl, by omega⟩, by omega⟩

/- ═══════════════  Witnesses  ═══════════════ -/

/-- Witness for C2: with a stored bid of 10, a repeat bid of 10 is rejected
with NotHigher carrying the current bid, state unchanged. -/
theorem placeBid_rejections_witness :
    placeBid 2000 "A" 10 (runAuction [⟨1, 2, 10⟩] [("A", 100)] 0 [.bid 1000 "A" 10]).1
      = (.err (.notHigher (currentBidOf
          (runAuction [⟨1, 2, 10⟩] [("A", 100)] 0 [.bid 1000 "A" 10]).1 "A")),
        (runAuction [⟨1, 2, 10⟩] [("A", 100)] 0 [.bid 1000 "A" 10]).1) :=
  (placeBid_rejections 2000 "A" 10
    (runAuction [⟨1, 2, 10⟩] [("A", 100)] 0 [.bid 1000 "A" 10]).1).2.2.1
    (by decide) (by decide) (by decide)

/-- Witness for C3, the spec's anti-snipe scenario: A=50 at t=0 in a 10 s
single-gift round, then B=60 at t=9000 (remaining 1 s, threshold 50):
the deadline is extended to 19000 and the timer re-armed. -/
theorem placeBid_antiSnipe_witness :
    ((placeBid 9000 "B" 60
        (runAuction [⟨1, 1, 10⟩] [("A", 100), ("B", 100)] 0
          [.bid 0 "A" 50]).1).2.roundEndTime = 19000) ∧
    ((placeBid 9000 "B" 60
        (runAuction [⟨1, 1, 10⟩] [("A", 100), ("B", 100)] 0
          [.bid 0 "A" 50]).1).2.timerTarget = some 19000) := by
  have h := placeBid_antiSnipe 9000 "B" 60
    (runAuction [⟨1, 1, 10⟩] [("A", 100), ("B", 100)] 0 [.bid 0 "A" 50]).1
    (by decide) (by decide) (by decide) (by decide) (by decide) (by decide)
  refine ⟨?_, ?_⟩
  · rw [h.1]; decide
  · rw [h.2.1]; decide

/-- Witness for C4 (amended): on a pending engine `endRound` is the
identity and `placeBid` rejects NotActive; on a live mid-close state the
phase-1 prefix leaves `isActive` true. -/
theorem isActive_semantics_witness :
    (endRound 5 (mkAuction [⟨1, 1, 5⟩] [("A", 100)]) = mkAuction [⟨1, 1, 5⟩] [("A", 100)]) ∧
    ((placeBid 5 "A" 3 (mkAuction [⟨1, 1, 5⟩] [("A", 100)])).1 = .err .notActive) ∧
    ((endRoundPhase1 (runAuction [⟨1, 1, 5⟩] [("A", 100)] 0
        [.bid 1000 "A" 3]).1).1.isActive = true) :=
  ⟨(isActive_semantics (mkAuction [⟨1, 1, 5⟩] [("A", 100)]) 5 5 "A" 3).1 rfl,
   (isActive_semantics (mkAuction [⟨1, 1, 5⟩] [("A", 100)]) 5 5 "A" 3).2.1 rfl,
   (isActive_semantics (runAuction [⟨1, 1, 5⟩] [("A", 100)] 0
      [.bid 1000 "A" 3]).1 0 0 "A" 3).2.2 (by decide)⟩

/-- Witness for C6 (amended): one bid in a K=2 first round yields exactly
the single gift number 1. -/
theorem gift_numbers_per_round_witness :
    ((endRoundPhase1 (runAuction [⟨1, 2, 10⟩, ⟨2, 1, 5⟩] [("A", 100)] 0
        [.bid 1000 "A" 50]).1).2).map Winner.gift_number = [1] := by
  have h := (gift_numbers_per_round (runAuction [⟨1, 2, 10⟩, ⟨2, 1, 5⟩] [("A", 100)] 0
      [.bid 1000 "A" 50]).1 (by decide)).1
  rw [h]
  decide

/-- Witness for C7 (amended): in a live one-bid state the bids map and the
sorted array hold the same bids, and a cold-cache lazy state's derived view
is a permutation of its bids map. -/
theorem leaderboard_invariant_witness :
    ((runAuction [⟨1, 2, 10⟩] [("A", 100)] 0 [.bid 1000 "A" 10]).1.bids.Perm
      (runAuction [⟨1, 2, 10⟩] [("A", 100)] 0 [.bid 1000 "A" 10]).1.sortedBids) ∧
    (getSortedBidsL (mkAuctionL [⟨1, 2, 10⟩] [("A", 100)])).Perm
      (mkAuctionL [⟨1, 2, 10⟩] [("A", 100)]).bids :=
  ⟨(leaderboard_invariant [⟨1, 2, 10⟩] [("A", 100)] 0
      [.bid 1000 "A" 10]).1.2.2.2.1 (by decide),
   ((leaderboard_invariant [⟨1, 2, 10⟩] [("A", 100)] 0 []).2
      (mkAuctionL [⟨1, 2, 10⟩] [("A", 100)]) rfl).1⟩

/-- Witness for C8 (amended): a strictly increasing two-bid trace produces
identical BidResult sequences in the two variants. -/
theorem variants_equivalent_witness :
    (runAuctionL [⟨1, 1, 10⟩] [("A", 100), ("B", 100)] 0
        [.bid 1000 "A" 10, .bid 2000 "B" 20]).2
      = (runAuction [⟨1, 1, 10⟩] [("A", 100), ("B", 100)] 0
        [.bid 1000 "A" 10, .bid 2000 "B" 20]).2 :=
  (variants_equivalent [⟨1, 1, 10⟩] [("A", 100), ("B", 100)] 0
    [.bid 1000 "A" 10, .bid 2000 "B" 20]
    (List.Chain.cons (by decide) (List.Chain.cons (by decide) List.Chain.nil))).1

/-- Witness for C9: a balance of 30 debits 20 successfully down to 10, and
an accepted first bid of 40 on a fresh balance of 100 succeeds with the
engine balances exactly the debited map. -/
theorem tryDebit_spec_witness :
    (BalanceManager.remove [("A", 30)] "A" 20
      = (true, BalanceManager.set [("A", 30)] "A"
          (BalanceManager.get [("A", 30)] "A" - 20))) ∧
    ((placeBid 1000 "A" 40 (runAuction [⟨1, 1, 10⟩] [("A", 100)] 0 []).1).1
      = .ok 40) :=
  ⟨((tryDebit_spec [("A", 30)] "A" 20 0 0 (mkAuction [] [])).1 (by decide)).1,
   ((tryDebit_spec [("A", 100)] "A" 40 1000 40
      (runAuction [⟨1, 1, 10⟩] [("A", 100)] 0 []).1).2.2
      (by decide) (by decide) (by decide) (by decide)).2.1⟩

/-- Witness for C10: with K = 1 and a single live bid of 10 the minimum
winning bid is 11. -/
theorem getMinWinningBid_spec_witness :
    getMinWinningBid (runAuction [⟨1, 1, 10⟩] [("A", 100)] 0
      [.bid 1000 "A" 10]).1 = 11 := by
  have h := ((getMinWinningBid_spec (runAuction [⟨1, 1, 10⟩] [("A", 100)] 0
      [.bid 1000 "A" 10]).1 (by decide) (by decide)).2 ⟨1, 1, 10⟩
      (by decide)).2.1 (by decide)
  rw [h.1]
  decide
